import Mathlib

set_option maxHeartbeats 1000000
set_option maxRecDepth 4000

/-!
Verification of the ni_string dynamic string library (src/ni_string.h and the
ni_string.c translation unit).

Bytes are modelled as natural numbers (every reachable byte value is below
256).  A string handle is modelled by the header fields it stores (the type
tag in the flags byte, the length field and the alloc field) together with
the bytes of the data region of its backing allocation (field raw): the len
content bytes, the NUL terminator, and any spare capacity after it.  For the
Embedded-5 header (type 5) there is no alloc field; ni_string_alloc derives
it from the 5-bit length, so the allocF field of the model is meaningless
for that variant and never read.

size_t arithmetic is modelled on Nat with an explicit  % 2 ^ 64  where the C
code can overflow (the growth computation of ni_string_make_room_for), and
the fixed-width header fields truncate on store exactly as the C assignments
to uint8_t/uint16_t/uint32_t/uint64_t fields do.  Out-of-bounds stores into
the data region (which are heap overflows in C) are modelled by List.set,
which leaves the list unchanged when the index is outside the allocation.
-/

/-- Header type tags: NI_STRING_TYPE_5 .. NI_STRING_TYPE_64. -/
inductive HType
  | t5 | t8 | t16 | t32 | t64
  deriving DecidableEq, Repr

/-- Numeric value of the tag as in the C enum (used for the comparison
type > NI_STRING_TYPE_8 in ni_string_remove_free_space). -/
def htypeOrd : HType → Nat
  | .t5 => 0 | .t8 => 1 | .t16 => 2 | .t32 => 3 | .t64 => 4

/-- Exclusive upper bound of the length/alloc fields of each header variant:
the 5-bit packed length for type 5, and the uintN fields otherwise. -/
def hdrLenMax : HType → Nat
  | .t5 => 32 | .t8 => 256 | .t16 => 65536 | .t32 => 4294967296
  | .t64 => 18446744073709551616

/-- NI_STRING_MAX_PREALLOC = 1024*1024. -/
def NI_STRING_MAX_PREALLOC : Nat := 1048576

/-- Modulus of size_t arithmetic (64-bit platform, LONG_MAX == LLONG_MAX). -/
def SIZE_T_MOD : Nat := 18446744073709551616

/-- ni_string_req_type: smallest header type whose length field can hold the
given size (64-bit branch of the #if). -/
def ni_string_req_type (n : Nat) : HType :=
  if n < 32 then .t5
  else if n < 256 then .t8
  else if n < 65536 then .t16
  else if n < 4294967296 then .t32
  else .t64

/-- Model of one ni_string handle: header fields plus the bytes of the data
region of the allocation (content, terminator, spare). -/
structure NiString where
  htype : HType
  lenF : Nat
  allocF : Nat
  raw : List Nat
  deriving DecidableEq, Repr

/-- ni_string_len: every case of the switch returns the stored length. -/
def ni_string_len (s : NiString) : Nat := s.lenF

/-- ni_string_alloc: type 5 derives it from the 5-bit length, the other
variants read the alloc field. -/
def ni_string_alloc (s : NiString) : Nat :=
  match s.htype with
  | .t5 => s.lenF
  | _ => s.allocF

/-- ni_string_avail: 0 for type 5, alloc - len otherwise.  The C subtraction
is on unsigned fields with len <= alloc in every valid state; Nat
subtraction agrees there. -/
def ni_string_avail (s : NiString) : Nat :=
  match s.htype with
  | .t5 => 0
  | _ => s.allocF - s.lenF

/-- ni_string_set_len: stores the new length into the fixed-width field
(5 bits packed into flags for type 5), truncating at the field width as the
C assignment does. -/
def ni_string_set_len (s : NiString) (newlen : Nat) : NiString :=
  { s with lenF := newlen % hdrLenMax s.htype }

/-- ni_string_set_alloc: nothing to do for type 5, otherwise stores into the
fixed-width alloc field. -/
def ni_string_set_alloc (s : NiString) (newlen : Nat) : NiString :=
  match s.htype with
  | .t5 => s
  | _ => { s with allocF := newlen % hdrLenMax s.htype }

/-- memcpy into the data region: writes the bytes of bs at offsets
i, i+1, ... .  A write beyond the end of the region is a heap overflow in C;
List.set leaves the list unchanged there. -/
def writeBytes (raw : List Nat) (i : Nat) : List Nat → List Nat
  | [] => raw
  | b :: bs => writeBytes (raw.set i b) (i + 1) bs

/-- realloc of the data region to n bytes: the common prefix is preserved,
bytes gained beyond the old size are unspecified in C and modelled as 0. -/
def resizeRegion (raw : List Nat) (n : Nat) : List Nat :=
  raw.take n ++ List.replicate (n - raw.length) 0

/-- Validity of a handle: the length (and for the field-bearing variants the
alloc field) fits the header, len <= alloc, the data region covers the
content plus terminator (and is exactly alloc+1 bytes for the field-bearing
variants), and the byte at offset len is 0. -/
def Valid (s : NiString) : Prop :=
  if s.htype = .t5 then
    s.lenF < 32 ∧ s.lenF + 1 ≤ s.raw.length ∧ s.raw[s.lenF]? = some 0
  else
    s.lenF ≤ s.allocF ∧ s.allocF < hdrLenMax s.htype ∧
      s.raw.length = s.allocF + 1 ∧ s.raw[s.lenF]? = some 0

instance (s : NiString) : Decidable (Valid s) := by
  unfold Valid; infer_instance

/-- Logical byte content of a handle: the first len bytes of the data
region. -/
def nsContent (s : NiString) : List Nat := s.raw.take s.lenF

/-- ni_string_new_len for a caller-supplied byte sequence (the init != NULL,
init != NI_STRING_NOINIT case).  Type 5 with initlen 0 is promoted to
type 8; the data region is the bytes followed by the terminator. -/
def ni_string_new_len (init : List Nat) : NiString :=
  let initlen := init.length
  let type0 := ni_string_req_type initlen
  let type1 := if type0 = .t5 ∧ initlen = 0 then .t8 else type0
  { htype := type1,
    lenF := initlen % hdrLenMax type1,
    allocF := if type1 = .t5 then 0 else initlen % hdrLenMax type1,
    raw := init ++ [0] }

/-- ni_string_empty = ni_string_new_len("", 0). -/
def ni_string_empty : NiString := ni_string_new_len []

/-- ni_string_clear: set the length to 0 and write a terminator at offset 0;
nothing else is touched and no allocation is performed. -/
def ni_string_clear (s : NiString) : NiString :=
  let s1 := ni_string_set_len s 0
  { s1 with raw := s1.raw.set 0 0 }

/-- Grown size computed by ni_string_make_room_for: newlen = len + addlen in
size_t arithmetic, then doubled below NI_STRING_MAX_PREALLOC and increased
by NI_STRING_MAX_PREALLOC at or above it. -/
def growLen (len addlen : Nat) : Nat :=
  let newlen1 := (len + addlen) % SIZE_T_MOD
  if newlen1 < NI_STRING_MAX_PREALLOC then (newlen1 * 2) % SIZE_T_MOD
  else (newlen1 + NI_STRING_MAX_PREALLOC) % SIZE_T_MOD

/-- Header type chosen by ni_string_make_room_for for the grown size:
ni_string_req_type with type 5 promoted to type 8 (type 5 cannot remember
empty space). -/
def growType (len addlen : Nat) : HType :=
  let t := ni_string_req_type (growLen len addlen)
  if t = .t5 then .t8 else t

/-- ni_string_make_room_for: return at once when the spare capacity already
covers addlen; otherwise grow to growLen, recompute the header type
(growType), and either realloc in place (same type) or allocate-copy-free
(type changes, so the data offset moves). -/
def ni_string_make_room_for (s : NiString) (addlen : Nat) : NiString :=
  if addlen ≤ ni_string_avail s then s
  else
    let len := ni_string_len s
    let newlen := growLen len addlen
    let type2 := growType len addlen
    if s.htype = type2 then
      ni_string_set_alloc { s with raw := resizeRegion s.raw (newlen + 1) } newlen
    else
      ni_string_set_alloc
        { htype := type2,
          lenF := len % hdrLenMax type2,
          allocF := 0,
          raw := s.raw.take (len + 1) ++ List.replicate (newlen - len) 0 } newlen

/-- ni_string_remove_free_space: no-op without spare capacity; otherwise the
minimal type for the current length is computed, and the block is realloc'd
in place keeping the old header when the types agree or the minimal type is
still larger than type 8, else allocate-copy-free into the smaller
header. -/
def ni_string_remove_free_space (s : NiString) : NiString :=
  let oldtype := s.htype
  let len := ni_string_len s
  let avail := ni_string_avail s
  if avail = 0 then s
  else
    let type1 := ni_string_req_type len
    if oldtype = type1 ∨ htypeOrd .t8 < htypeOrd type1 then
      ni_string_set_alloc { s with raw := resizeRegion s.raw (len + 1) } len
    else
      let s2 : NiString :=
        { htype := type1,
          lenF := len % hdrLenMax type1,
          allocF := 0,
          raw := s.raw.take (len + 1) }
      ni_string_set_alloc s2 len

/-- ni_string_incr_len: the per-variant assert is modelled by returning none
(the fatal path) when it fails; on success the length field is adjusted and
the terminator written at the new end.  Type 5 checks incr > 0 with
oldlen + incr < 32 or incr < 0 with oldlen >= -incr; the field-bearing
variants check incr >= 0 with alloc - len >= incr or incr < 0 with
len >= -incr. -/
def ni_string_incr_len (s : NiString) (incr : Int) : Option NiString :=
  match s.htype with
  | .t5 =>
    if (0 < incr ∧ (s.lenF : Int) + incr < 32) ∨
        (incr < 0 ∧ -incr ≤ (s.lenF : Int)) then
      let len := ((s.lenF : Int) + incr).toNat % 32
      some { s with lenF := len, raw := s.raw.set len 0 }
    else none
  | _ =>
    if (0 ≤ incr ∧ incr ≤ (s.allocF : Int) - (s.lenF : Int)) ∨
        (incr < 0 ∧ -incr ≤ (s.lenF : Int)) then
      let len := ((s.lenF : Int) + incr).toNat % hdrLenMax s.htype
      some { s with lenF := len, raw := s.raw.set len 0 }
    else none

/-- ni_string_grow_zero: no-op when len <= current length, else make room
and memset the new region (terminator included) to zero. -/
def ni_string_grow_zero (s : NiString) (len : Nat) : NiString :=
  let curlen := ni_string_len s
  if len ≤ curlen then s
  else
    let s1 := ni_string_make_room_for s (len - curlen)
    let s2 := { s1 with raw := writeBytes s1.raw curlen (List.replicate (len - curlen + 1) 0) }
    ni_string_set_len s2 len

/-- ni_string_cat_len: make room for len extra bytes, memcpy them at the old
end, store the new length and write the terminator. -/
def ni_string_cat_len (s : NiString) (t : List Nat) : NiString :=
  let curlen := ni_string_len s
  let s1 := ni_string_make_room_for s t.length
  let s2 := { s1 with raw := writeBytes s1.raw curlen t }
  let s3 := ni_string_set_len s2 (curlen + t.length)
  { s3 with raw := s3.raw.set (curlen + t.length) 0 }

/-- ni_string_cat: the argument is a C string, so only the bytes before the
first NUL (strlen) are appended. -/
def ni_string_cat (s : NiString) (t : List Nat) : NiString :=
  ni_string_cat_len s (t.takeWhile (· != 0))

/-- ni_string_cpy_len: destructive overwrite; make room only when the total
allocation cannot hold len bytes, then memcpy from offset 0, write the
terminator and store the length. -/
def ni_string_cpy_len (s : NiString) (t : List Nat) : NiString :=
  let s1 :=
    if ni_string_alloc s < t.length then
      ni_string_make_room_for s (t.length - ni_string_len s)
    else s
  let s2 := { s1 with raw := writeBytes s1.raw 0 t }
  let s3 := { s2 with raw := s2.raw.set t.length 0 }
  ni_string_set_len s3 t.length

/-- ni_string_cat_vprintf / ni_string_cat_printf: the libc vsnprintf output
is external to the repository, so the formatted bytes are supplied as the
argument out; the function then appends them as the C string they are
(ni_string_cat). -/
def ni_string_cat_vprintf (s : NiString) (out : List Nat) : NiString :=
  ni_string_cat s out

/-- strchr(cset, c) over the trim character set: it also finds the NUL
terminator of cset, so byte 0 always matches. -/
def memB (cset : List Nat) (b : Nat) : Bool :=
  cset.contains b || b == 0

/-- ni_string_trim: drop the longest run of cset bytes at both ends (the
right scan cannot pass the first surviving byte), memmove the survivors to
offset 0 when anything was dropped on the left, write the terminator and
store the new length. -/
def ni_string_trim (s : NiString) (cset : List Nat) : NiString :=
  let len := ni_string_len s
  let content := s.raw.take len
  let sp := (content.takeWhile (memB cset)).length
  let newC := (content.drop sp).rdropWhile (memB cset)
  let newlen := newC.length
  let raw1 := if sp ≠ 0 then writeBytes s.raw 0 newC else s.raw
  let raw2 := raw1.set newlen 0
  ni_string_set_len { s with raw := raw2 } newlen

/-- Index resolution of ni_string_range, applied to both start and end:
negative indices count from the end and are floored at 0. -/
def rangeResolve (len : Nat) (idx : Int) : Int :=
  if idx < 0 then (if (len : Int) + idx < 0 then 0 else (len : Int) + idx) else idx

/-- Start/newlen adjustment of ni_string_range after index resolution: an
empty inclusive interval gives newlen 0 (and start 0), a start at or past
len gives newlen 0, an end at or past len is capped at len - 1. -/
def rangePair (len : Nat) (start1 end1 : Int) : Int × Int :=
  let newlen1 : Int := if start1 > end1 then 0 else end1 - start1 + 1
  if newlen1 ≠ 0 then
    if start1 ≥ (len : Int) then (start1, 0)
    else if end1 ≥ (len : Int) then
      (start1, if start1 > (len : Int) - 1 then 0 else ((len : Int) - 1) - start1 + 1)
    else (start1, newlen1)
  else (0, newlen1)

/-- ni_string_range: inclusive in-place sub-range with negative indices
counted from the end; the survivors are memmoved to offset 0 and
terminated. -/
def ni_string_range (s : NiString) (start0 end0 : Int) : NiString :=
  let len := ni_string_len s
  if len = 0 then s
  else
    let pair := rangePair len (rangeResolve len start0) (rangeResolve len end0)
    let start2 := pair.1
    let newlen := pair.2
    let raw1 :=
      if start2 ≠ 0 ∧ newlen ≠ 0 then
        writeBytes s.raw 0 ((s.raw.drop start2.toNat).take newlen.toNat)
      else s.raw
    let raw2 := raw1.set newlen.toNat 0
    ni_string_set_len { s with raw := raw2 } newlen.toNat

/-- Digit loop shared by ni_string_ll2str and ni_string_ull2str: produces
the decimal digits least significant first (the do-while always emits at
least one digit).  The first argument is fuel making the recursion
structural; each step divides the value by 10, so fuel v is always enough
and the 0 fallback is unreachable from digitsRevLoop. -/
def digitsRevGo : Nat → Nat → List Nat
  | 0, v => [48 + v % 10]
  | fuel + 1, v => if v < 10 then [48 + v] else (48 + v % 10) :: digitsRevGo fuel (v / 10)

/-- The do-while digit loop at fuel v. -/
def digitsRevLoop (v : Nat) : List Nat := digitsRevGo v v

/-- ni_string_ll2str: reversed digits of |value|, a minus sign appended for
negatives, then the in-place reversal. -/
def ni_string_ll2str (value : Int) : List Nat :=
  let v : Nat := (if value < 0 then -value else value).toNat
  let ds := digitsRevLoop v
  let ds2 := if value < 0 then ds ++ [45] else ds
  ds2.reverse

/-- ni_string_ull2str. -/
def ni_string_ull2str (v : Nat) : List Nat :=
  (digitsRevLoop v).reverse

/-- Bytes treated as blanks by isspace (C locale): space, \t \n \v \f \r. -/
def isspaceB (b : Nat) : Bool := b == 32 || (9 ≤ b && b ≤ 13)

/-- isprint (C locale): the printable ASCII range. -/
def is_print (b : Nat) : Bool := 32 ≤ b && b ≤ 126

/-- is_hex_digit from ni_string.c. -/
def is_hex_digit (c : Nat) : Bool :=
  (48 ≤ c && c ≤ 57) || (97 ≤ c && c ≤ 102) || (65 ≤ c && c ≤ 70)

/-- hex_digit_to_int from ni_string.c (0 for non-digits). -/
def hex_digit_to_int (c : Nat) : Nat :=
  if 48 ≤ c ∧ c ≤ 57 then c - 48
  else if 97 ≤ c ∧ c ≤ 102 then c - 97 + 10
  else if 65 ≤ c ∧ c ≤ 70 then c - 65 + 10
  else 0

/-- Short backslash escapes recognized inside double quotes by
ni_string_split_args (\n \r \t \b \a; any other byte stands for itself). -/
def escChar (c : Nat) : Nat :=
  if c = 110 then 10
  else if c = 114 then 13
  else if c = 116 then 9
  else if c = 98 then 8
  else if c = 97 then 7
  else c

/-- Double-quote state of the ni_string_split_args token loop.  cur is the
token built so far; the result is the token and the unconsumed rest (the
closing quote consumed), or none on the two error exits (end of input while
still inside the quotes, closing quote followed by a non-blank).  A lone
backslash right before the terminator is appended literally by the C code
and the next iteration then reports the unterminated quote, so those paths
return none directly. -/
def parseInQ (cur : List Nat) : List Nat → Option (List Nat × List Nat)
  | [] => none
  | b :: rest =>
    if b = 92 then
      if rest = [] then none
      else
        let c := rest.headD 0
        if c = 0 then parseInQ (cur ++ [92]) rest
        else if c = 120 then
          let h1 := rest.tail.headD 0
          let h2 := rest.tail.tail.headD 0
          if is_hex_digit h1 ∧ is_hex_digit h2 then
            parseInQ (cur ++ [hex_digit_to_int h1 * 16 + hex_digit_to_int h2]) (rest.tail.drop 2)
          else parseInQ (cur ++ [escChar c]) rest.tail
        else parseInQ (cur ++ [escChar c]) rest.tail
    else if b = 34 then
      if rest = [] then some (cur, [])
      else if isspaceB (rest.headD 0) then some (cur, rest) else none
    else if b = 0 then none
    else parseInQ (cur ++ [b]) rest
  termination_by input => input.length
  decreasing_by
    all_goals (simp only [List.length_cons, List.length_tail, List.length_drop]; omega)

/-- Single-quote state of the ni_string_split_args token loop: only the
escape backslash-quote is recognized. -/
def parseInSq (cur : List Nat) : List Nat → Option (List Nat × List Nat)
  | [] => none
  | b :: rest =>
    if b = 92 ∧ rest.headD 0 = 39 then parseInSq (cur ++ [39]) rest.tail
    else if b = 92 ∧ rest = [] then none
    else if b = 92 then parseInSq (cur ++ [92]) rest
    else if b = 39 then
      if rest = [] then some (cur, [])
      else if isspaceB (rest.headD 0) then some (cur, rest) else none
    else if b = 0 then none
    else parseInSq (cur ++ [b]) rest
  termination_by input => input.length
  decreasing_by
    all_goals (simp only [List.length_cons, List.length_tail, List.length_drop]; omega)

/-- Unquoted state of the ni_string_split_args token loop: space, \n, \r,
\t or the terminator end the token (the blank is consumed, the terminator
is not), a quote switches into the quoted states, anything else (including
\v and \f) is taken literally. -/
def parseToken (cur : List Nat) : List Nat → Option (List Nat × List Nat)
  | [] => some (cur, [])
  | b :: rest =>
    if b = 32 ∨ b = 10 ∨ b = 13 ∨ b = 9 then some (cur, rest)
    else if b = 0 then some (cur, [])
    else if b = 34 then parseInQ cur rest
    else if b = 39 then parseInSq cur rest
    else parseToken (cur ++ [b]) rest
  termination_by input => input.length
  decreasing_by all_goals (simp only [List.length_cons]; omega)

/-- Outer loop of ni_string_split_args with explicit fuel (each token
consumes at least one byte, so line.length + 1 units always suffice; the
fuel only makes the recursion structural). -/
def splitArgsGo : Nat → List Nat → Option (List (List Nat))
  | 0, _ => none
  | fuel + 1, line =>
    let rest := line.dropWhile (fun b => b != 0 && isspaceB b)
    match rest.head? with
    | none => some []
    | some b =>
      if b = 0 then some []
      else
        match parseToken [] rest with
        | none => none
        | some (tok, rest2) =>
          match splitArgsGo fuel rest2 with
          | none => none
          | some toks => some (tok :: toks)

/-- ni_string_split_args, at the level of byte contents: the returned
vector of ni_strings is modelled by the list of the tokens' byte contents;
the NULL error return (with *argc = 0 and every partial token freed) is
none, and the non-null empty vector for blank input is some []. -/
def ni_string_split_args (line : List Nat) : Option (List (List Nat)) :=
  splitArgsGo (line.length + 1) line

/-- Escape of one byte as appended by ni_string_cat_repr: backslash and
double quote get a backslash, \n \r \t \a \b their short escapes, other
printable bytes stand for themselves, everything else becomes a lowercase
\xHH pair (the ni_string_cat_printf calls involved format single bytes; the
formatted output is inlined here since the libc formatter is external). -/
def reprByte (b : Nat) : List Nat :=
  if b = 92 ∨ b = 34 then [92, b]
  else if b = 10 then [92, 110]
  else if b = 13 then [92, 114]
  else if b = 9 then [92, 116]
  else if b = 7 then [92, 97]
  else if b = 8 then [92, 98]
  else if is_print b then [b]
  else [92, 120, if b / 16 < 10 then 48 + b / 16 else 97 + (b / 16 - 10),
        if b % 16 < 10 then 48 + b % 16 else 97 + (b % 16 - 10)]

/-- Byte image of ni_string_cat_repr's whole output for content p: opening
quote, escaped bytes, closing quote. -/
def reprBytes (p : List Nat) : List Nat := 34 :: (p.flatMap reprByte ++ [34])

/-- Per-byte loop of ni_string_cat_repr. -/
def catReprLoop (s : NiString) : List Nat → NiString
  | [] => ni_string_cat_len s [34]
  | b :: p => catReprLoop (ni_string_cat_len s (reprByte b)) p

/-- ni_string_cat_repr: append a double quote, every byte escaped, and a
closing double quote. -/
def ni_string_cat_repr (s : NiString) (p : List Nat) : NiString :=
  catReprLoop (ni_string_cat_len s [34]) p

/-- memcmp search of ni_string_split_len: index of the first occurrence of
sep at or after the current position (the loop bound j < len - (seplen - 1)
is the same as requiring the whole separator to fit). -/
def findSep (s sep : List Nat) : Option Nat :=
  if s.take sep.length = sep then some 0
  else
    match s with
    | [] => none
    | _ :: s2 => (findSep s2 sep).map (· + 1)

/-- Token loop of ni_string_split_len with explicit fuel (every emitted
token advances past at least one byte, so s.length + 1 units always
suffice): a token before every non-overlapping occurrence of sep, then the
final trailing span. -/
def splitLoopGo : Nat → List Nat → List Nat → List (List Nat)
  | 0, _, s => [s]
  | fuel + 1, sep, s =>
    match findSep s sep with
    | none => [s]
    | some j => s.take j :: splitLoopGo fuel sep (s.drop (j + sep.length))

/-- Token list produced by ni_string_split_len on nonempty input. -/
def splitLoop (sep s : List Nat) : List (List Nat) :=
  splitLoopGo (s.length + 1) sep s

/-- ni_string_split_len at the level of byte contents: NULL (for an empty
separator, and for negative len, unrepresentable here since the length is
carried by the list) is none; an empty input yields zero tokens with a
non-null array. -/
def ni_string_split_len (s sep : List Nat) : Option (List (List Nat)) :=
  if sep.length < 1 then none
  else if s.length = 0 then some []
  else some (splitLoop sep s)

/-- Number of non-overlapping occurrences of sep found by the left-to-right
scan of ni_string_split_len. -/
def countSepGo : Nat → List Nat → List Nat → Nat
  | 0, _, _ => 0
  | fuel + 1, sep, s =>
    match findSep s sep with
    | none => 0
    | some j => countSepGo fuel sep (s.drop (j + sep.length)) + 1

/-- Occurrence count entering the token-count statement of the spec. -/
def countSep (sep s : List Nat) : Nat := countSepGo (s.length + 1) sep s

/-- Join of tokens with the separator between (not after) elements, as
ni_string_join_ni_string does. -/
def joinSep (sep : List Nat) : List (List Nat) → List Nat
  | [] => []
  | [t] => t
  | t :: ts => t ++ sep ++ joinSep sep ts

/-- Variadic arguments consumed by ni_string_cat_fmt: a byte string (for %s
the bytes of the C string, for %S the content of the ni_string argument),
a signed integer (%i and %I), an unsigned integer (%u and %U). -/
inductive FmtArg
  | aStr (bytes : List Nat)
  | aInt (n : Int)
  | aUInt (n : Nat)
  deriving DecidableEq, Repr

/-- va_arg for a string verb. -/
def nextStrArg : List FmtArg → List Nat
  | .aStr bs :: _ => bs
  | _ => []

/-- va_arg for a signed integer verb. -/
def nextIntArg : List FmtArg → Int
  | .aInt n :: _ => n
  | _ => 0

/-- va_arg for an unsigned integer verb. -/
def nextUIntArg : List FmtArg → Nat
  | .aUInt n :: _ => n
  | _ => 0

/-- Loop of ni_string_cat_fmt; i is the write position (always the current
length).  Each iteration first makes sure at least one byte is available,
then dispatches on the format byte; the verb cases grow by the converted
length when needed, memcpy the bytes at i and call ni_string_incr_len
(none models that assert failing, the process abort path).  A format
ending in a lone percent reads the terminator as the verb and emits it
through the default case.  The first argument is fuel, structurally
consumed; every iteration also consumes at least one format byte, so any
fuel above the format length never runs out (the 0 case is unreachable
from ni_string_cat_fmt). -/
def ni_string_cat_fmt_go : Nat → NiString → List Nat → List FmtArg → Nat → Option NiString
  | 0, _, _, _, _ => none
  | fuel + 1, s, f, args, i =>
    match f with
    | [] => some { s with raw := s.raw.set i 0 }
    | c :: f1 =>
      let s0 := if ni_string_avail s = 0 then ni_string_make_room_for s 1 else s
      if c = 37 then
        match f1 with
        | [] =>
          let sw := { s0 with raw := s0.raw.set i 0 }
          match ni_string_incr_len sw 1 with
          | none => none
          | some s2 => ni_string_cat_fmt_go fuel s2 [] args (i + 1)
        | next :: f2 =>
          if next = 115 ∨ next = 83 then
            let str := nextStrArg args
            let l := str.length
            let s1 := if ni_string_avail s0 < l then ni_string_make_room_for s0 l else s0
            let sw := { s1 with raw := writeBytes s1.raw i str }
            match ni_string_incr_len sw (l : Int) with
            | none => none
            | some s2 => ni_string_cat_fmt_go fuel s2 f2 args.tail (i + l)
          else if next = 105 ∨ next = 73 then
            let buf := ni_string_ll2str (nextIntArg args)
            let l := buf.length
            let s1 := if ni_string_avail s0 < l then ni_string_make_room_for s0 l else s0
            let sw := { s1 with raw := writeBytes s1.raw i buf }
            match ni_string_incr_len sw (l : Int) with
            | none => none
            | some s2 => ni_string_cat_fmt_go fuel s2 f2 args.tail (i + l)
          else if next = 117 ∨ next = 85 then
            let buf := ni_string_ull2str (nextUIntArg args)
            let l := buf.length
            let s1 := if ni_string_avail s0 < l then ni_string_make_room_for s0 l else s0
            let sw := { s1 with raw := writeBytes s1.raw i buf }
            match ni_string_incr_len sw (l : Int) with
            | none => none
            | some s2 => ni_string_cat_fmt_go fuel s2 f2 args.tail (i + l)
          else
            let sw := { s0 with raw := s0.raw.set i next }
            match ni_string_incr_len sw 1 with
            | none => none
            | some s2 => ni_string_cat_fmt_go fuel s2 f2 args (i + 1)
      else
        let sw := { s0 with raw := s0.raw.set i c }
        match ni_string_incr_len sw 1 with
        | none => none
        | some s2 => ni_string_cat_fmt_go fuel s2 f1 args (i + 1)

/-- ni_string_cat_fmt. -/
def ni_string_cat_fmt (s : NiString) (fmt : List Nat) (args : List FmtArg) :
    Option NiString :=
  ni_string_cat_fmt_go (fmt.length + 1) s fmt args (ni_string_len s)

/-- Bytes appended by ni_string_cat_fmt for a format and argument list:
verbatim bytes, with the recognized verbs replaced by the argument bytes or
their decimal rendering and any other byte after a percent (the terminator
included, for a trailing percent) emitted literally. -/
def fmtRender (f : List Nat) (args : List FmtArg) : List Nat :=
  match f with
  | [] => []
  | c :: f1 =>
    if c = 37 then
      match f1 with
      | [] => [0]
      | next :: f2 =>
        if next = 115 ∨ next = 83 then nextStrArg args ++ fmtRender f2 args.tail
        else if next = 105 ∨ next = 73 then
          ni_string_ll2str (nextIntArg args) ++ fmtRender f2 args.tail
        else if next = 117 ∨ next = 85 then
          ni_string_ull2str (nextUIntArg args) ++ fmtRender f2 args.tail
        else next :: fmtRender f2 args
    else c :: fmtRender f1 args

/-- States of the spec-side well-formedness scan of a command line
(section 4.5 of the spec): outside quotes, inside double quotes, inside
single quotes. -/
inductive ScanMode
  | out | inQ | inSq
  deriving DecidableEq, Repr

/-- Spec-side well-formedness of a command line: every opened quote is
terminated, a closing quote is immediately followed by whitespace or the
end of the input, with the documented escape sets inside quotes. -/
def scanOk : ScanMode → List Nat → Bool
  | .out, [] => true
  | .inQ, [] => false
  | .inSq, [] => false
  | .out, b :: rest =>
    if b = 34 then scanOk .inQ rest
    else if b = 39 then scanOk .inSq rest
    else scanOk .out rest
  | .inQ, b :: rest =>
    if b = 92 then
      if rest = [] then false
      else
        let c := rest.headD 0
        if c = 120 then
          let h1 := rest.tail.headD 0
          let h2 := rest.tail.tail.headD 0
          if is_hex_digit h1 ∧ is_hex_digit h2 then scanOk .inQ (rest.tail.drop 2)
          else scanOk .inQ rest.tail
        else scanOk .inQ rest.tail
    else if b = 34 then
      if rest = [] then true
      else if isspaceB (rest.headD 0) then scanOk .out rest else false
    else scanOk .inQ rest
  | .inSq, b :: rest =>
    if b = 92 ∧ rest.headD 0 = 39 then scanOk .inSq rest.tail
    else if b = 92 ∧ rest = [] then false
    else if b = 92 then scanOk .inSq rest
    else if b = 39 then
      if rest = [] then true
      else if isspaceB (rest.headD 0) then scanOk .out rest else false
    else scanOk .inSq rest
  termination_by _ input => input.length
  decreasing_by
    all_goals (simp only [List.length_cons, List.length_tail, List.length_drop]; omega)

/-- Result of ni_string_range as the spec (amended) describes it: negative
indices resolved from the end and floored at 0, a start at or past len
empties the result, the end is capped at len - 1, and the surviving
inclusive interval is shifted to offset 0. -/
def rangeSpec (xs : List Nat) (st en : Int) : List Nat :=
  if xs.length = 0 then xs
  else
    let st1 : Int := if st < 0 then st + xs.length else st
    let en1 : Int := if en < 0 then en + xs.length else en
    let st2 : Int := max st1 0
    let en2 : Int := min (max en1 0) ((xs.length : Int) - 1)
    if st2 > en2 ∨ st2 ≥ (xs.length : Int) then []
    else (xs.drop st2.toNat).take (en2 - st2 + 1).toNat

/-- Literal reading of the claim's clamping for sub_range: start clamped
into [0, len), end clamped into [-1, len), empty clamped interval gives the
empty result. -/
def rangeClaimSpec (xs : List Nat) (st en : Int) : List Nat :=
  let st1 : Int := if st < 0 then st + xs.length else st
  let en1 : Int := if en < 0 then en + xs.length else en
  let st2 : Int := min (max st1 0) ((xs.length : Int) - 1)
  let en2 : Int := min (max en1 (-1)) ((xs.length : Int) - 1)
  if st2 > en2 then [] else (xs.drop st2.toNat).take (en2 - st2 + 1).toNat

/-- Observable alloc field: Embedded-5 has none. -/
def allocField (s : NiString) : Option Nat :=
  match s.htype with
  | .t5 => none
  | _ => some s.allocF

/-- Fixture: a valid type 5 handle holding one byte (ni_string_new("a")
produces exactly this state). -/
def exT5 : NiString := ⟨.t5, 1, 0, [97, 0]⟩

/-- Fixture: a valid type 8 handle with no spare capacity, used for the
size_t overflow of the growth computation. -/
def exOvf : NiString := ⟨.t8, 10, 10, [97, 97, 97, 97, 97, 97, 97, 97, 97, 97, 0]⟩

/-- Fixture: a valid type 32 handle with spare capacity whose length only
needs type 16. -/
def exC7 : NiString := ⟨.t32, 300, 400, List.replicate 300 97 ++ 0 :: List.replicate 100 0⟩

/-- Fixture: the buffer "ciao" (a type 5 handle). -/
def exCiao : NiString := ni_string_new_len [99, 105, 97, 111]

/-- Fixture: a valid type 8 handle with two spare bytes. -/
def exC9 : NiString := ⟨.t8, 1, 3, [97, 0, 0, 0]⟩

example : ni_string_ll2str (-9223372036854775808) =
    [45, 57, 50, 50, 51, 51, 55, 50, 48, 51, 54, 56, 53, 52, 55, 55, 53, 56, 48, 56] := by
  decide

example : Valid (ni_string_new_len [102, 111, 111]) := by decide
example : ni_string_len (ni_string_cat_len (ni_string_new_len [102, 111]) [98, 97, 114]) = 5 := by
  decide
example : nsContent (ni_string_cat_len (ni_string_new_len [102, 111]) [98, 97, 114]) =
    [102, 111, 98, 97, 114] := by decide
example : Valid (ni_string_cat_len (ni_string_new_len [102, 111]) [98, 97, 114]) := by decide
example : nsContent (ni_string_range (ni_string_new_len [99, 105, 97, 111]) 1 1) = [105] := by
  decide
example : nsContent (ni_string_range (ni_string_new_len [99, 105, 97, 111]) (-2) (-1)) =
    [97, 111] := by decide
example : ni_string_len (ni_string_range (ni_string_new_len [99, 105, 97, 111]) 2 1) = 0 := by
  decide

/-! ### Lemmas about the byte-region primitives -/

theorem writeBytes_length (bs : List Nat) : ∀ (raw : List Nat) (i : Nat),
    (writeBytes raw i bs).length = raw.length := by
  induction bs with
  | nil => intro raw i; rfl
  | cons b bs ih => intro raw i; simp only [writeBytes, ih, List.length_set]

theorem writeBytes_getElem?_lt (bs : List Nat) (j : Nat) : ∀ (raw : List Nat) (i : Nat),
    j < i → (writeBytes raw i bs)[j]? = raw[j]? := by
  induction bs with
  | nil => intro raw i _; rfl
  | cons b bs ih =>
    intro raw i h
    simp only [writeBytes]
    rw [ih _ _ (by omega), List.getElem?_set_ne (by omega)]

theorem writeBytes_getElem?_ge (bs : List Nat) (j : Nat) : ∀ (raw : List Nat) (i : Nat),
    i + bs.length ≤ j → (writeBytes raw i bs)[j]? = raw[j]? := by
  induction bs with
  | nil => intro raw i _; rfl
  | cons b bs ih =>
    intro raw i h
    simp only [List.length_cons] at h
    simp only [writeBytes]
    rw [ih _ _ (by omega), List.getElem?_set_ne (by omega)]

theorem writeBytes_getElem?_in (bs : List Nat) (j : Nat) : ∀ (raw : List Nat) (i : Nat),
    i ≤ j → j < i + bs.length → i + bs.length ≤ raw.length →
    (writeBytes raw i bs)[j]? = bs[j - i]? := by
  induction bs with
  | nil =>
    intro raw i h1 h2 _
    simp only [List.length_nil, Nat.add_zero] at h2
    omega
  | cons b bs ih =>
    intro raw i h1 h2 h3
    simp only [List.length_cons] at h2 h3
    by_cases hj : j = i
    · subst hj
      simp only [writeBytes]
      rw [writeBytes_getElem?_lt _ _ _ _ (by omega),
        List.getElem?_set_self (by omega)]
      simp
    · simp only [writeBytes]
      rw [ih (raw.set i b) (i + 1) (by omega) (by omega) (by simp only [List.length_set]; omega)]
      have hji : j - i = (j - (i + 1)) + 1 := by omega
      rw [hji, List.getElem?_cons_succ]

theorem resizeRegion_length (raw : List Nat) (n : Nat) :
    (resizeRegion raw n).length = n := by
  rw [resizeRegion, List.length_append, List.length_take, List.length_replicate]
  omega

theorem resizeRegion_getElem?_lt (raw : List Nat) (n j : Nat) (hn : j < n)
    (hr : j < raw.length) : (resizeRegion raw n)[j]? = raw[j]? := by
  rw [resizeRegion, List.getElem?_append]
  rw [if_pos (by simp only [List.length_take]; omega)]
  rw [List.getElem?_take, if_pos hn]

theorem take_congr_getElem? {l1 l2 : List Nat} {n : Nat}
    (h : ∀ i, i < n → l1[i]? = l2[i]?) : l1.take n = l2.take n := by
  apply List.ext_getElem?
  intro m
  rw [List.getElem?_take, List.getElem?_take]
  split_ifs with hm
  · exact h m hm
  · rfl

/-! ### Lemmas about header accessors and validity -/

theorem alloc_of_ne_t5 {s : NiString} (h : s.htype ≠ .t5) :
    ni_string_alloc s = s.allocF := by
  rcases s with ⟨ht, l, a, r⟩
  cases ht <;> simp_all [ni_string_alloc]

theorem alloc_of_t5 {s : NiString} (h : s.htype = .t5) :
    ni_string_alloc s = s.lenF := by
  rcases s with ⟨ht, l, a, r⟩
  cases ht <;> simp_all [ni_string_alloc]

theorem avail_of_ne_t5 {s : NiString} (h : s.htype ≠ .t5) :
    ni_string_avail s = s.allocF - s.lenF := by
  rcases s with ⟨ht, l, a, r⟩
  cases ht <;> simp_all [ni_string_avail]

theorem avail_of_t5 {s : NiString} (h : s.htype = .t5) :
    ni_string_avail s = 0 := by
  rcases s with ⟨ht, l, a, r⟩
  cases ht <;> simp_all [ni_string_avail]

theorem set_alloc_of_ne_t5 {s : NiString} (h : s.htype ≠ .t5) (n : Nat) :
    ni_string_set_alloc s n = { s with allocF := n % hdrLenMax s.htype } := by
  rcases s with ⟨ht, l, a, r⟩
  cases ht <;> simp_all [ni_string_set_alloc]

theorem set_alloc_htype (s : NiString) (n : Nat) :
    (ni_string_set_alloc s n).htype = s.htype := by
  rcases s with ⟨ht, l, a, r⟩
  cases ht <;> rfl

theorem set_alloc_lenF (s : NiString) (n : Nat) :
    (ni_string_set_alloc s n).lenF = s.lenF := by
  rcases s with ⟨ht, l, a, r⟩
  cases ht <;> rfl

theorem set_alloc_raw (s : NiString) (n : Nat) :
    (ni_string_set_alloc s n).raw = s.raw := by
  rcases s with ⟨ht, l, a, r⟩
  cases ht <;> rfl

theorem valid_term {s : NiString} (hv : Valid s) : s.raw[s.lenF]? = some 0 := by
  unfold Valid at hv
  split at hv <;> tauto

theorem valid_len_lt_raw {s : NiString} (hv : Valid s) : s.lenF < s.raw.length := by
  unfold Valid at hv
  split at hv
  · obtain ⟨h1, h2, h3⟩ := hv; omega
  · obtain ⟨h1, h2, h3, h4⟩ := hv
    have := List.getElem?_eq_none (l := s.raw) (n := s.lenF)
    by_contra hc
    rw [this (by omega)] at h4
    cases h4

theorem valid_not_t5 {s : NiString} (hv : Valid s) (h : s.htype ≠ .t5) :
    s.lenF ≤ s.allocF ∧ s.allocF < hdrLenMax s.htype ∧ s.raw.length = s.allocF + 1 ∧
      s.raw[s.lenF]? = some 0 := by
  unfold Valid at hv
  rw [if_neg h] at hv
  exact hv

theorem valid_t5 {s : NiString} (hv : Valid s) (h : s.htype = .t5) :
    s.lenF < 32 ∧ s.lenF + 1 ≤ s.raw.length ∧ s.raw[s.lenF]? = some 0 := by
  unfold Valid at hv
  rw [if_pos h] at hv
  exact hv

theorem valid_of_not_t5 {s : NiString} (h : s.htype ≠ .t5) (h1 : s.lenF ≤ s.allocF)
    (h2 : s.allocF < hdrLenMax s.htype) (h3 : s.raw.length = s.allocF + 1)
    (h4 : s.raw[s.lenF]? = some 0) : Valid s := by
  unfold Valid
  rw [if_neg h]
  exact ⟨h1, h2, h3, h4⟩

theorem valid_of_t5 {s : NiString} (h : s.htype = .t5) (h1 : s.lenF < 32)
    (h2 : s.lenF + 1 ≤ s.raw.length) (h3 : s.raw[s.lenF]? = some 0) : Valid s := by
  unfold Valid
  rw [if_pos h]
  exact ⟨h1, h2, h3⟩

/-! ### Lemmas about the growth computation -/

theorem req_type_t5_iff (n : Nat) : ni_string_req_type n = .t5 ↔ n < 32 := by
  unfold ni_string_req_type
  split_ifs <;> simp_all

theorem lt_hdrLenMax_req (n : Nat) (h : n < SIZE_T_MOD) :
    n < hdrLenMax (ni_string_req_type n) := by
  unfold ni_string_req_type SIZE_T_MOD at *
  split_ifs <;> simp_all [hdrLenMax]

theorem growLen_eq (L A : Nat) (hov : L + A + NI_STRING_MAX_PREALLOC < SIZE_T_MOD) :
    growLen L A =
      if L + A < NI_STRING_MAX_PREALLOC then (L + A) * 2
      else L + A + NI_STRING_MAX_PREALLOC := by
  unfold NI_STRING_MAX_PREALLOC SIZE_T_MOD at *
  simp only [growLen, NI_STRING_MAX_PREALLOC, SIZE_T_MOD]
  rw [Nat.mod_eq_of_lt (by omega)]
  split_ifs with h
  · exact Nat.mod_eq_of_lt (by omega)
  · exact Nat.mod_eq_of_lt (by omega)

theorem growLen_ge (L A : Nat) (hov : L + A + NI_STRING_MAX_PREALLOC < SIZE_T_MOD) :
    L + A ≤ growLen L A := by
  rw [growLen_eq L A hov]
  split_ifs <;> omega

theorem growLen_lt_mod (L A : Nat) (hov : L + A + NI_STRING_MAX_PREALLOC < SIZE_T_MOD) :
    growLen L A < SIZE_T_MOD := by
  rw [growLen_eq L A hov]
  unfold NI_STRING_MAX_PREALLOC SIZE_T_MOD at *
  split_ifs <;> omega

theorem growType_ne_t5 (L A : Nat) : growType L A ≠ .t5 := by
  simp only [growType]
  split_ifs with h
  · simp
  · exact h

theorem growLen_lt_hdrLenMax (L A : Nat) (hov : L + A + NI_STRING_MAX_PREALLOC < SIZE_T_MOD) :
    growLen L A < hdrLenMax (growType L A) := by
  simp only [growType]
  split_ifs with h
  · have h32 := (req_type_t5_iff (growLen L A)).mp h
    simp only [hdrLenMax]
    omega
  · exact lt_hdrLenMax_req _ (growLen_lt_mod L A hov)

/-! ### Branch equations and the main bundle for ni_string_make_room_for -/

theorem make_room_of_le {s : NiString} {addlen : Nat} (h : addlen ≤ ni_string_avail s) :
    ni_string_make_room_for s addlen = s := by
  unfold ni_string_make_room_for
  rw [if_pos h]

theorem make_room_of_gt_same {s : NiString} {addlen : Nat}
    (h : ¬ addlen ≤ ni_string_avail s) (hty : s.htype = growType s.lenF addlen) :
    ni_string_make_room_for s addlen =
      ni_string_set_alloc
        { s with raw := resizeRegion s.raw (growLen s.lenF addlen + 1) }
        (growLen s.lenF addlen) := by
  simp only [ni_string_make_room_for, ni_string_len]
  rw [if_neg h, if_pos hty]

theorem make_room_of_gt_diff {s : NiString} {addlen : Nat}
    (h : ¬ addlen ≤ ni_string_avail s) (hty : ¬ s.htype = growType s.lenF addlen) :
    ni_string_make_room_for s addlen =
      ni_string_set_alloc
        { htype := growType s.lenF addlen,
          lenF := s.lenF % hdrLenMax (growType s.lenF addlen),
          allocF := 0,
          raw := s.raw.take (s.lenF + 1) ++
            List.replicate (growLen s.lenF addlen - s.lenF) 0 }
        (growLen s.lenF addlen) := by
  simp only [ni_string_make_room_for, ni_string_len]
  rw [if_neg h, if_neg hty]

theorem avail_mk_ne_t5 {ht : HType} (h : ht ≠ .t5) (l a : Nat) (r : List Nat) :
    ni_string_avail ⟨ht, l, a, r⟩ = a - l := by
  cases ht <;> simp_all [ni_string_avail]

theorem alloc_mk_ne_t5 {ht : HType} (h : ht ≠ .t5) (l a : Nat) (r : List Nat) :
    ni_string_alloc ⟨ht, l, a, r⟩ = a := by
  cases ht <;> simp_all [ni_string_alloc]

theorem valid_mk_not_t5 {ht : HType} (h : ht ≠ .t5) {l a : Nat} {r : List Nat}
    (h1 : l ≤ a) (h2 : a < hdrLenMax ht) (h3 : r.length = a + 1) (h4 : r[l]? = some 0) :
    Valid ⟨ht, l, a, r⟩ := by
  unfold Valid
  rw [if_neg h]
  exact ⟨h1, h2, h3, h4⟩

theorem valid_mk_t5 {ht : HType} (h : ht = .t5) {l a : Nat} {r : List Nat}
    (h1 : l < 32) (h2 : l + 1 ≤ r.length) (h3 : r[l]? = some 0) : Valid ⟨ht, l, a, r⟩ := by
  unfold Valid
  rw [if_pos h]
  exact ⟨h1, h2, h3⟩

theorem make_room_of_gt_same' {s : NiString} {addlen : Nat}
    (h : ¬ addlen ≤ ni_string_avail s) (hty : s.htype = growType s.lenF addlen) :
    ni_string_make_room_for s addlen =
      ⟨s.htype, s.lenF, growLen s.lenF addlen % hdrLenMax s.htype,
        resizeRegion s.raw (growLen s.lenF addlen + 1)⟩ := by
  rw [make_room_of_gt_same h hty]
  have hne : s.htype ≠ .t5 := by rw [hty]; exact growType_ne_t5 _ _
  rcases s with ⟨ht, l, a, r⟩
  cases ht <;> simp_all [ni_string_set_alloc]

theorem make_room_of_gt_diff' {s : NiString} {addlen : Nat}
    (h : ¬ addlen ≤ ni_string_avail s) (hty : ¬ s.htype = growType s.lenF addlen) :
    ni_string_make_room_for s addlen =
      ⟨growType s.lenF addlen,
        s.lenF % hdrLenMax (growType s.lenF addlen),
        growLen s.lenF addlen % hdrLenMax (growType s.lenF addlen),
        s.raw.take (s.lenF + 1) ++ List.replicate (growLen s.lenF addlen - s.lenF) 0⟩ := by
  rw [make_room_of_gt_diff h hty]
  have hne : growType s.lenF addlen ≠ .t5 := growType_ne_t5 _ _
  generalize growType s.lenF addlen = T at hne ⊢
  cases T <;> simp_all [ni_string_set_alloc]

theorem make_room_spec (s : NiString) (addlen : Nat) (hv : Valid s)
    (hov : s.lenF + addlen + NI_STRING_MAX_PREALLOC < SIZE_T_MOD) :
    Valid (ni_string_make_room_for s addlen) ∧
    (ni_string_make_room_for s addlen).lenF = s.lenF ∧
    addlen ≤ ni_string_avail (ni_string_make_room_for s addlen) ∧
    (∀ i, i ≤ s.lenF → (ni_string_make_room_for s addlen).raw[i]? = s.raw[i]?) := by
  by_cases hle : addlen ≤ ni_string_avail s
  · rw [make_room_of_le hle]
    exact ⟨hv, rfl, hle, fun i _ => rfl⟩
  · have hge := growLen_ge s.lenF addlen hov
    have hmax := growLen_lt_hdrLenMax s.lenF addlen hov
    have hlt := valid_len_lt_raw hv
    have hterm := valid_term hv
    have hT5 : growType s.lenF addlen ≠ .t5 := growType_ne_t5 s.lenF addlen
    by_cases hty : s.htype = growType s.lenF addlen
    · have hsne : s.htype ≠ .t5 := by rw [hty]; exact hT5
      have hmod : growLen s.lenF addlen % hdrLenMax s.htype = growLen s.lenF addlen := by
        rw [hty]; exact Nat.mod_eq_of_lt hmax
      rw [make_room_of_gt_same' hle hty, hmod]
      refine ⟨?_, rfl, ?_, ?_⟩
      · exact valid_mk_not_t5 hsne (by omega) (hty ▸ hmax) (resizeRegion_length _ _)
          (by rw [resizeRegion_getElem?_lt _ _ _ (by omega) hlt]; exact hterm)
      · rw [avail_mk_ne_t5 hsne]
        omega
      · intro i hi
        exact resizeRegion_getElem?_lt _ _ _ (by omega) (by omega)
    · have hmodL : s.lenF % hdrLenMax (growType s.lenF addlen) = s.lenF :=
        Nat.mod_eq_of_lt (by omega)
      have hmodN : growLen s.lenF addlen % hdrLenMax (growType s.lenF addlen) =
          growLen s.lenF addlen := Nat.mod_eq_of_lt hmax
      rw [make_room_of_gt_diff' hle hty, hmodL, hmodN]
      refine ⟨?_, rfl, ?_, ?_⟩
      · refine valid_mk_not_t5 hT5 (by omega) hmax ?_ ?_
        · rw [List.length_append, List.length_take, List.length_replicate]
          omega
        · rw [List.getElem?_append, if_pos (by simp only [List.length_take]; omega),
            List.getElem?_take, if_pos (by omega)]
          exact hterm
      · rw [avail_mk_ne_t5 hT5]
        omega
      · intro i hi
        rw [List.getElem?_append, if_pos (by simp only [List.length_take]; omega),
          List.getElem?_take, if_pos (by omega)]

theorem make_room_content (s : NiString) (addlen : Nat) (hv : Valid s)
    (hov : s.lenF + addlen + NI_STRING_MAX_PREALLOC < SIZE_T_MOD) :
    nsContent (ni_string_make_room_for s addlen) = nsContent s := by
  obtain ⟨_, hlen, _, hpt⟩ := make_room_spec s addlen hv hov
  unfold nsContent
  rw [hlen]
  exact take_congr_getElem? (fun i hi => hpt i (by omega))

theorem make_room_htype_grow {s : NiString} {addlen : Nat}
    (h : ¬ addlen ≤ ni_string_avail s) :
    (ni_string_make_room_for s addlen).htype = growType s.lenF addlen := by
  by_cases hty : s.htype = growType s.lenF addlen
  · rw [make_room_of_gt_same' h hty]
    exact hty
  · rw [make_room_of_gt_diff' h hty]

theorem make_room_alloc_grow {s : NiString} {addlen : Nat}
    (h : ¬ addlen ≤ ni_string_avail s)
    (hov : s.lenF + addlen + NI_STRING_MAX_PREALLOC < SIZE_T_MOD) :
    ni_string_alloc (ni_string_make_room_for s addlen) = growLen s.lenF addlen := by
  have hmax := growLen_lt_hdrLenMax s.lenF addlen hov
  by_cases hty : s.htype = growType s.lenF addlen
  · rw [make_room_of_gt_same' h hty,
      alloc_mk_ne_t5 (by rw [hty]; exact growType_ne_t5 _ _)]
    rw [hty]
    exact Nat.mod_eq_of_lt hmax
  · rw [make_room_of_gt_diff' h hty, alloc_mk_ne_t5 (growType_ne_t5 _ _)]
    exact Nat.mod_eq_of_lt hmax

theorem ne_t5_of_avail_pos {s : NiString} (h : 0 < ni_string_avail s) : s.htype ≠ .t5 := by
  intro h5
  rw [avail_of_t5 h5] at h
  omega

theorem nsContent_length {s : NiString} (hv : Valid s) : (nsContent s).length = s.lenF := by
  rw [nsContent, List.length_take]
  have := valid_len_lt_raw hv
  omega

/-! ### The bundle for ni_string_cat_len -/

theorem cat_len_spec (s : NiString) (t : List Nat) (hv : Valid s)
    (hov : s.lenF + t.length + NI_STRING_MAX_PREALLOC < SIZE_T_MOD) :
    Valid (ni_string_cat_len s t) ∧
    (ni_string_cat_len s t).lenF = s.lenF + t.length ∧
    nsContent (ni_string_cat_len s t) = nsContent s ++ t := by
  obtain ⟨hv1, hlen1, hav1, hpt1⟩ := make_room_spec s t.length hv hov
  have hres : ni_string_cat_len s t =
      ⟨(ni_string_make_room_for s t.length).htype,
        (s.lenF + t.length) % hdrLenMax (ni_string_make_room_for s t.length).htype,
        (ni_string_make_room_for s t.length).allocF,
        (writeBytes (ni_string_make_room_for s t.length).raw s.lenF t).set
          (s.lenF + t.length) 0⟩ := rfl
  set s1 := ni_string_make_room_for s t.length with hs1
  have hclen : (nsContent s).length = s.lenF := nsContent_length hv
  by_cases h5 : s1.htype = .t5
  · -- only possible when no growth was needed into a type 5 handle: t.length = 0
    have hT0 : t.length = 0 := by
      rw [avail_of_t5 h5] at hav1
      omega
    have htnil : t = [] := List.length_eq_zero.mp hT0
    obtain ⟨hl32, hraw1, hterm1⟩ := valid_t5 hv1 h5
    rw [hlen1] at hl32 hraw1 hterm1
    have hmod : (s.lenF + t.length) % hdrLenMax s1.htype = s.lenF := by
      rw [hT0, h5]
      simp only [hdrLenMax]
      omega
    rw [hres, hmod]
    have hrw : writeBytes s1.raw s.lenF t = s1.raw := by rw [htnil]; rfl
    refine ⟨?_, by simp [hT0], ?_⟩
    · apply valid_mk_t5 h5 hl32
      · rw [hrw]
        simp only [List.length_set]
        exact hraw1
      · rw [hrw, hT0, Nat.add_zero, List.getElem?_set_self (by omega)]
    · unfold nsContent
      dsimp only
      rw [hrw, hT0, Nat.add_zero, htnil, List.append_nil]
      apply take_congr_getElem?
      intro i hi
      rw [List.getElem?_set_ne (by omega), hpt1 i (by omega)]
  · obtain ⟨hle1, hluax, hraw1len, hterm1⟩ := valid_not_t5 hv1 h5
    rw [hlen1] at hle1 hterm1
    rw [avail_of_ne_t5 h5, hlen1] at hav1
    have hfit : s.lenF + t.length ≤ s1.allocF := by omega
    have hmod : (s.lenF + t.length) % hdrLenMax s1.htype = s.lenF + t.length :=
      Nat.mod_eq_of_lt (by omega)
    have hwlen : (writeBytes s1.raw s.lenF t).length = s1.raw.length :=
      writeBytes_length _ _ _
    rw [hres, hmod]
    refine ⟨?_, rfl, ?_⟩
    · apply valid_mk_not_t5 h5 hfit hluax
      · simp only [List.length_set, hwlen]
        exact hraw1len
      · rw [List.getElem?_set_self (by rw [hwlen]; omega)]
    · unfold nsContent
      dsimp only
      apply List.ext_getElem?
      intro i
      rw [List.getElem?_take]
      have hclen2 : (List.take s.lenF s.raw).length = s.lenF := by
        rw [List.length_take]
        have := valid_len_lt_raw hv
        omega
      split_ifs with hi
      · rw [List.getElem?_set_ne (by omega)]
        by_cases hiL : i < s.lenF
        · rw [writeBytes_getElem?_lt _ _ _ _ hiL, hpt1 i (by omega)]
          rw [List.getElem?_append, if_pos (by rw [hclen2]; omega)]
          rw [List.getElem?_take, if_pos hiL]
        · have hb3 : s.lenF + t.length ≤ s1.raw.length := by omega
          rw [writeBytes_getElem?_in _ _ _ _ (by omega) (by omega) hb3]
          rw [List.getElem?_append_right (by rw [hclen2]; omega), hclen2]
      · symm
        apply List.getElem?_eq_none
        rw [List.length_append, hclen2]
        omega

/-! ### The bundle for ni_string_incr_len -/

theorem incr_len_spec (s : NiString) (incr : Int) (hv : Valid s)
    (hpre : (0 ≤ incr ∧ incr ≤ (ni_string_avail s : Int) ∧ ¬(s.htype = .t5 ∧ incr = 0)) ∨
      (incr < 0 ∧ -incr ≤ (s.lenF : Int))) :
    (ni_string_incr_len s incr).isSome = true ∧
    ((ni_string_incr_len s incr).getD s).lenF = ((s.lenF : Int) + incr).toNat ∧
    ((ni_string_incr_len s incr).getD s).raw[((s.lenF : Int) + incr).toNat]? = some 0 ∧
    ((ni_string_incr_len s incr).getD s).htype = s.htype ∧
    ((ni_string_incr_len s incr).getD s).allocF = s.allocF ∧
    ((ni_string_incr_len s incr).getD s).raw.length = s.raw.length ∧
    Valid ((ni_string_incr_len s incr).getD s) := by
  unfold ni_string_incr_len
  split
  case h_1 heq =>
    obtain ⟨h32, hlr, hterm⟩ := valid_t5 hv heq
    rw [avail_of_t5 heq] at hpre
    have hneg : incr < 0 ∧ -incr ≤ (s.lenF : Int) := by
      rcases hpre with ⟨h1, h2, h3⟩ | h
      · exact absurd ⟨heq, by omega⟩ h3
      · exact h
    rw [if_pos (Or.inr hneg)]
    simp only [Option.isSome_some, Option.getD_some]
    have hlt : ((s.lenF : Int) + incr).toNat < 32 := by omega
    have hmod : ((s.lenF : Int) + incr).toNat % 32 = ((s.lenF : Int) + incr).toNat :=
      Nat.mod_eq_of_lt hlt
    rw [hmod]
    refine ⟨by simp, by simp, ?_, by simp, by simp, by simp [List.length_set], ?_⟩
    · rw [List.getElem?_set_self (by omega)]
    · apply valid_mk_t5 heq hlt
      · simp only [List.length_set]
        omega
      · rw [List.getElem?_set_self (by omega)]
  case h_2 x heq =>
    have hne : s.htype ≠ .t5 := fun h => heq h
    obtain ⟨hle, hmax, hlenr, hterm⟩ := valid_not_t5 hv hne
    rw [avail_of_ne_t5 hne] at hpre
    have hcond : (0 ≤ incr ∧ incr ≤ (s.allocF : Int) - (s.lenF : Int)) ∨
        (incr < 0 ∧ -incr ≤ (s.lenF : Int)) := by
      rcases hpre with ⟨h1, h2, _⟩ | h
      · left
        exact ⟨h1, by omega⟩
      · right
        exact h
    rw [if_pos hcond]
    simp only [Option.isSome_some, Option.getD_some]
    have hlt : ((s.lenF : Int) + incr).toNat < hdrLenMax s.htype := by
      rcases hcond with ⟨h1, h2⟩ | ⟨h1, h2⟩ <;> omega
    have hmod : ((s.lenF : Int) + incr).toNat % hdrLenMax s.htype =
        ((s.lenF : Int) + incr).toNat := Nat.mod_eq_of_lt hlt
    rw [hmod]
    have hbound : ((s.lenF : Int) + incr).toNat ≤ s.allocF := by
      rcases hcond with ⟨h1, h2⟩ | ⟨h1, h2⟩ <;> omega
    refine ⟨by simp, by simp, ?_, by simp, by simp, by simp [List.length_set], ?_⟩
    · rw [List.getElem?_set_self (by omega)]
    · apply valid_mk_not_t5 hne hbound hmax
      · simp only [List.length_set]
        exact hlenr
      · rw [List.getElem?_set_self (by omega)]

/-! ### The bundle for ni_string_clear -/

theorem clear_spec (s : NiString) (hv : Valid s) :
    (ni_string_clear s).lenF = 0 ∧
    (ni_string_clear s).raw[0]? = some 0 ∧
    (ni_string_clear s).htype = s.htype ∧
    allocField (ni_string_clear s) = allocField s ∧
    (ni_string_clear s).raw.length = s.raw.length ∧
    (ni_string_clear s).raw.tail = s.raw.tail ∧
    (s.htype ≠ .t5 → ni_string_avail (ni_string_clear s) = ni_string_alloc s) ∧
    Valid (ni_string_clear s) := by
  have hlen := valid_len_lt_raw hv
  rcases s with ⟨ht, l, a, r⟩
  dsimp only at hlen ⊢
  have hclear : ni_string_clear ⟨ht, l, a, r⟩ = ⟨ht, 0, a, r.set 0 0⟩ := by
    show (⟨ht, 0 % hdrLenMax ht, a, r.set 0 0⟩ : NiString) = _
    rw [Nat.zero_mod]
  rw [hclear]
  refine ⟨rfl, ?_, rfl, ?_, by simp [List.length_set], ?_, ?_, ?_⟩
  · rw [List.getElem?_set_self (by omega)]
  · cases ht <;> rfl
  · cases r with
    | nil => rfl
    | cons x xs => rfl
  · intro h5
    have h5' : ht ≠ .t5 := h5
    rw [avail_mk_ne_t5 h5', alloc_mk_ne_t5 h5']
    omega
  · by_cases h5 : ht = .t5
    · exact valid_mk_t5 h5 (by omega) (by simp only [List.length_set]; omega)
        (by rw [List.getElem?_set_self (by omega)])
    · obtain ⟨h1, h2, h3, h4⟩ := valid_not_t5 hv h5
      exact valid_mk_not_t5 h5 (by omega) h2 (by simp only [List.length_set]; exact h3)
        (by rw [List.getElem?_set_self (by omega)])

/-! ### Branch equations and the bundle for ni_string_remove_free_space -/

theorem rfs_of_avail_zero {s : NiString} (h : ni_string_avail s = 0) :
    ni_string_remove_free_space s = s := by
  unfold ni_string_remove_free_space
  simp only [ni_string_len]
  rw [if_pos h]

theorem rfs_of_realloc {s : NiString} (h : ¬ ni_string_avail s = 0)
    (hbr : s.htype = ni_string_req_type s.lenF ∨
      htypeOrd .t8 < htypeOrd (ni_string_req_type s.lenF)) :
    ni_string_remove_free_space s =
      ⟨s.htype, s.lenF, s.lenF % hdrLenMax s.htype, resizeRegion s.raw (s.lenF + 1)⟩ := by
  unfold ni_string_remove_free_space
  simp only [ni_string_len]
  rw [if_neg h, if_pos hbr]
  have hne : s.htype ≠ .t5 := ne_t5_of_avail_pos (by omega)
  rcases s with ⟨ht, l, a, r⟩
  cases ht <;> simp_all [ni_string_set_alloc]

theorem rfs_of_copy {s : NiString} (h : ¬ ni_string_avail s = 0)
    (hbr : ¬ (s.htype = ni_string_req_type s.lenF ∨
      htypeOrd .t8 < htypeOrd (ni_string_req_type s.lenF))) :
    ni_string_remove_free_space s =
      ni_string_set_alloc
        ⟨ni_string_req_type s.lenF, s.lenF % hdrLenMax (ni_string_req_type s.lenF), 0,
          s.raw.take (s.lenF + 1)⟩ s.lenF := by
  unfold ni_string_remove_free_space
  simp only [ni_string_len]
  rw [if_neg h, if_neg hbr]

theorem ord_le_one {t : HType} (h : ¬ 1 < htypeOrd t) : t = .t5 ∨ t = .t8 := by
  cases t <;> simp_all [htypeOrd]

theorem req_type_t8 {n : Nat} (h : ni_string_req_type n = .t8) : n < 256 := by
  unfold ni_string_req_type at h
  split_ifs at h
  simp_all

theorem remove_free_space_spec (s : NiString) (hv : Valid s) :
    Valid (ni_string_remove_free_space s) ∧
    (ni_string_remove_free_space s).lenF = s.lenF ∧
    nsContent (ni_string_remove_free_space s) = nsContent s ∧
    ni_string_alloc (ni_string_remove_free_space s) = s.lenF ∧
    (ni_string_remove_free_space s).htype =
      (if ni_string_avail s = 0 then s.htype
       else if s.htype = ni_string_req_type s.lenF ∨
           htypeOrd HType.t8 < htypeOrd (ni_string_req_type s.lenF) then s.htype
       else ni_string_req_type s.lenF) := by
  have hrawlt := valid_len_lt_raw hv
  have hterm := valid_term hv
  by_cases hz : ni_string_avail s = 0
  · rw [rfs_of_avail_zero hz, if_pos hz]
    refine ⟨hv, rfl, rfl, ?_, rfl⟩
    by_cases h5 : s.htype = .t5
    · rw [alloc_of_t5 h5]
    · rw [alloc_of_ne_t5 h5]
      rw [avail_of_ne_t5 h5] at hz
      obtain ⟨h1, _, _, _⟩ := valid_not_t5 hv h5
      omega
  · have hne : s.htype ≠ .t5 := ne_t5_of_avail_pos (by omega)
    obtain ⟨hle, hmax, hlenr, _⟩ := valid_not_t5 hv hne
    have hlenlt : s.lenF < hdrLenMax s.htype := by omega
    by_cases hbr : s.htype = ni_string_req_type s.lenF ∨
        htypeOrd .t8 < htypeOrd (ni_string_req_type s.lenF)
    · rw [rfs_of_realloc hz hbr, Nat.mod_eq_of_lt hlenlt]
      refine ⟨?_, rfl, ?_, ?_, ?_⟩
      · apply valid_mk_not_t5 hne (le_refl _) hlenlt (resizeRegion_length _ _)
        rw [resizeRegion_getElem?_lt _ _ _ (by omega) (by omega)]
        exact hterm
      · unfold nsContent
        dsimp only
        apply take_congr_getElem?
        intro i hi
        exact resizeRegion_getElem?_lt _ _ _ (by omega) (by omega)
      · rw [alloc_mk_ne_t5 hne]
      · rw [if_neg hz, if_pos hbr]
    · have hreq5or8 := ord_le_one (fun hgt => hbr (Or.inr hgt))
      have hlt256 : s.lenF < hdrLenMax (ni_string_req_type s.lenF) := by
        rcases hreq5or8 with h | h
        · rw [h]
          simp only [hdrLenMax]
          exact (req_type_t5_iff s.lenF).mp h
        · rw [h]
          simp only [hdrLenMax]
          exact req_type_t8 h
      rw [rfs_of_copy hz hbr]
      have htake_len : (s.raw.take (s.lenF + 1)).length = s.lenF + 1 := by
        rw [List.length_take]
        omega
      have htake_term : (s.raw.take (s.lenF + 1))[s.lenF]? = some 0 := by
        rw [List.getElem?_take, if_pos (by omega)]
        exact hterm
      have hcont : ∀ i, i < s.lenF → (s.raw.take (s.lenF + 1))[i]? = s.raw[i]? := by
        intro i hi
        rw [List.getElem?_take, if_pos (by omega)]
      rcases hreq5or8 with h5 | h8
      · -- the copy shrinks into a type 5 header; set_alloc is a no-op there
        rw [h5]
        have hset : ni_string_set_alloc
            ⟨HType.t5, s.lenF % hdrLenMax HType.t5, 0, s.raw.take (s.lenF + 1)⟩ s.lenF =
            ⟨HType.t5, s.lenF % hdrLenMax HType.t5, 0, s.raw.take (s.lenF + 1)⟩ := rfl
        rw [hset]
        have h32 : s.lenF < 32 := (req_type_t5_iff s.lenF).mp h5
        rw [show hdrLenMax HType.t5 = 32 from rfl, Nat.mod_eq_of_lt h32]
        refine ⟨?_, rfl, ?_, ?_, ?_⟩
        · exact valid_mk_t5 rfl h32 (by omega) htake_term
        · unfold nsContent
          dsimp only
          exact take_congr_getElem? hcont
        · rw [alloc_of_t5 rfl]
        · rw [if_neg hz, if_neg (by
            rw [h5] at hbr
            rintro (h | h)
            · exact hbr (Or.inl h)
            · simp [htypeOrd] at h)]
      · rw [h8]
        have hset : ni_string_set_alloc
            ⟨HType.t8, s.lenF % hdrLenMax HType.t8, 0, s.raw.take (s.lenF + 1)⟩ s.lenF =
            ⟨HType.t8, s.lenF % hdrLenMax HType.t8, s.lenF % hdrLenMax HType.t8,
              s.raw.take (s.lenF + 1)⟩ := rfl
        rw [hset]
        have h256 : s.lenF < 256 := req_type_t8 h8
        rw [show hdrLenMax HType.t8 = 256 from rfl, Nat.mod_eq_of_lt h256]
        refine ⟨?_, rfl, ?_, ?_, ?_⟩
        · exact valid_mk_not_t5 (by simp) (le_refl _) (by simp [hdrLenMax]; omega)
            htake_len htake_term
        · unfold nsContent
          dsimp only
          exact take_congr_getElem? hcont
        · rw [alloc_mk_ne_t5 (by simp)]
        · rw [if_neg hz, if_neg (by
            rw [h8] at hbr
            rintro (h | h)
            · exact hbr (Or.inl h)
            · simp [htypeOrd] at h)]

/-! ### The characterization of ni_string_range -/

theorem valid_len_lt_hdr {s : NiString} (hv : Valid s) : s.lenF < hdrLenMax s.htype := by
  by_cases h5 : s.htype = .t5
  · obtain ⟨h32, _, _⟩ := valid_t5 hv h5
    rw [h5]
    exact h32
  · obtain ⟨h1, h2, _, _⟩ := valid_not_t5 hv h5
    omega

theorem rangeResolve_eq (L : Nat) (idx : Int) :
    rangeResolve L idx = max (if idx < 0 then idx + (L : Int) else idx) 0 := by
  unfold rangeResolve
  split_ifs <;> omega

theorem rangePair_snd (L : Nat) (S E0 : Int) :
    (rangePair L S E0).2 =
      (if S > min E0 ((L : Int) - 1) ∨ S ≥ (L : Int) then 0
       else min E0 ((L : Int) - 1) - S + 1) := by
  simp only [rangePair]
  split_ifs <;> simp_all <;> omega

theorem rangePair_fst (L : Nat) (S E0 : Int) (h : (rangePair L S E0).2 ≠ 0) :
    (rangePair L S E0).1 = S := by
  simp only [rangePair] at h ⊢
  split_ifs at h ⊢ <;> simp_all

theorem range_spec (s : NiString) (st en : Int) (hv : Valid s) :
    Valid (ni_string_range s st en) ∧
    (ni_string_range s st en).htype = s.htype ∧
    (ni_string_range s st en).allocF = s.allocF ∧
    (ni_string_range s st en).lenF = (rangeSpec (nsContent s) st en).length ∧
    nsContent (ni_string_range s st en) = rangeSpec (nsContent s) st en := by
  have hrawlt := valid_len_lt_raw hv
  have hclen : (nsContent s).length = s.lenF := nsContent_length hv
  have hhdr := valid_len_lt_hdr hv
  by_cases hL : s.lenF = 0
  · have hr : ni_string_range s st en = s := by
      unfold ni_string_range
      simp only [ni_string_len]
      rw [if_pos hL]
    have hxs : rangeSpec (nsContent s) st en = nsContent s := by
      unfold rangeSpec
      rw [if_pos (by rw [hclen]; exact hL)]
    rw [hr, hxs]
    exact ⟨hv, rfl, rfl, hclen.symm, rfl⟩
  · have hS0 : 0 ≤ rangeResolve s.lenF st := by rw [rangeResolve_eq]; omega
    have hE00 : 0 ≤ rangeResolve s.lenF en := by rw [rangeResolve_eq]; omega
    have hsnd := rangePair_snd s.lenF (rangeResolve s.lenF st) (rangeResolve s.lenF en)
    have hspecgen : rangeSpec (nsContent s) st en =
        (if rangeResolve s.lenF st >
            min (rangeResolve s.lenF en) ((s.lenF : Int) - 1) ∨
            rangeResolve s.lenF st ≥ (s.lenF : Int) then []
         else ((nsContent s).drop (rangeResolve s.lenF st).toNat).take
            (min (rangeResolve s.lenF en) ((s.lenF : Int) - 1) -
              rangeResolve s.lenF st + 1).toNat) := by
      simp only [rangeSpec]
      rw [if_neg (by rw [hclen]; exact hL), hclen,
        ← rangeResolve_eq s.lenF st, ← rangeResolve_eq s.lenF en]
    set S := rangeResolve s.lenF st with hSdef
    set E0 := rangeResolve s.lenF en with hE0def
    set P := rangePair s.lenF S E0 with hPdef
    have hres : ni_string_range s st en =
        ni_string_set_len
          { s with raw := (if P.1 ≠ 0 ∧ P.2 ≠ 0 then
              writeBytes s.raw 0 ((s.raw.drop P.1.toNat).take P.2.toNat)
            else s.raw).set P.2.toNat 0 } P.2.toNat := by
      unfold ni_string_range
      simp only [ni_string_len]
      rw [if_neg hL]
    by_cases hNL : P.2 = 0
    · have hor : S > min E0 ((s.lenF : Int) - 1) ∨ S ≥ (s.lenF : Int) := by
        by_contra hc
        rw [if_neg hc] at hsnd
        omega
      have hspec0 : rangeSpec (nsContent s) st en = [] := by
        rw [hspecgen, if_pos hor]
      have hres2 : ni_string_range s st en = ⟨s.htype, 0, s.allocF, s.raw.set 0 0⟩ := by
        rw [hres, hNL]
        rw [if_neg (by simp), ni_string_set_len]
        show (⟨s.htype, (0 : Int).toNat % hdrLenMax s.htype, s.allocF, _⟩ : NiString) = _
        simp only [Int.toNat_zero, Nat.zero_mod]
      rw [hres2, hspec0]
      refine ⟨?_, rfl, rfl, rfl, ?_⟩
      · by_cases h5 : s.htype = .t5
        · exact valid_mk_t5 h5 (by omega) (by simp only [List.length_set]; omega)
            (by rw [List.getElem?_set_self (by omega)])
        · obtain ⟨h1, h2, h3, h4⟩ := valid_not_t5 hv h5
          exact valid_mk_not_t5 h5 (by omega) h2 (by simp only [List.length_set]; exact h3)
            (by rw [List.getElem?_set_self (by omega)])
      · rw [nsContent]
        simp
    · have hfst : P.1 = S := rangePair_fst s.lenF S E0 hNL
      have hcond : ¬ (S > min E0 ((s.lenF : Int) - 1) ∨ S ≥ (s.lenF : Int)) := by
        by_contra hc
        rw [if_pos hc] at hsnd
        exact hNL hsnd
      rw [if_neg hcond] at hsnd
      have hE : min E0 ((s.lenF : Int) - 1) ≤ (s.lenF : Int) - 1 := min_le_right _ _
      have hSNL : S.toNat + P.2.toNat ≤ s.lenF := by omega
      have hNLpos : 0 < P.2.toNat := by omega
      have hspecN : rangeSpec (nsContent s) st en =
          (s.raw.drop S.toNat).take P.2.toNat := by
        rw [hspecgen, if_neg hcond, nsContent, List.drop_take, List.take_take]
        congr 1
        omega
      have hsegval : ∀ i : Nat,
          ((s.raw.drop S.toNat).take P.2.toNat)[i]? =
          (if i < P.2.toNat then s.raw[S.toNat + i]? else none) := by
        intro i
        rw [List.getElem?_take]
        split_ifs with hi
        · rw [List.getElem?_drop]
        · rfl
      have hseglen : ((s.raw.drop S.toNat).take P.2.toNat).length = P.2.toNat := by
        rw [List.length_take, List.length_drop]
        omega
      have hraw1 : ∀ i : Nat, i < P.2.toNat →
          ((if P.1 ≠ 0 ∧ P.2 ≠ 0 then
              writeBytes s.raw 0 ((s.raw.drop P.1.toNat).take P.2.toNat)
            else s.raw))[i]? = s.raw[S.toNat + i]? := by
        intro i hi
        rw [hfst]
        split_ifs with hcase
        · rw [writeBytes_getElem?_in _ _ _ _ (by omega) (by rw [hseglen]; omega)
            (by rw [hseglen]; omega), Nat.sub_zero, hsegval]
          rw [if_pos hi]
        · have hz : S.toNat = 0 := by
            rcases not_and_or.mp hcase with h | h
            · simp only [ne_eq, not_not] at h
              omega
            · exact absurd hNL (by simp [h])
          rw [hz, Nat.zero_add]
      have hrawlen1 :
          ((if P.1 ≠ 0 ∧ P.2 ≠ 0 then
              writeBytes s.raw 0 ((s.raw.drop P.1.toNat).take P.2.toNat)
            else s.raw)).length = s.raw.length := by
        split_ifs with hcase
        · rw [writeBytes_length]
        · rfl
      have hmodN : P.2.toNat % hdrLenMax s.htype = P.2.toNat :=
        Nat.mod_eq_of_lt (by omega)
      have hres3 : ni_string_range s st en =
          ⟨s.htype, P.2.toNat % hdrLenMax s.htype, s.allocF,
            (if P.1 ≠ 0 ∧ P.2 ≠ 0 then
              writeBytes s.raw 0 ((s.raw.drop P.1.toNat).take P.2.toNat)
            else s.raw).set P.2.toNat 0⟩ := by
        rw [hres]
        rfl
      rw [hres3, hmodN, hspecN]
      refine ⟨?_, rfl, rfl, ?_, ?_⟩
      · by_cases h5 : s.htype = .t5
        · rw [h5] at hhdr
          simp only [hdrLenMax] at hhdr
          apply valid_mk_t5 h5 (by omega)
          · simp only [List.length_set, hrawlen1]
            omega
          · rw [List.getElem?_set_self (by simp only [List.length_set, hrawlen1]; omega)]
        · obtain ⟨h1, h2, h3, h4⟩ := valid_not_t5 hv h5
          apply valid_mk_not_t5 h5 (by omega) h2
          · simp only [List.length_set, hrawlen1]
            exact h3
          · rw [List.getElem?_set_self (by simp only [List.length_set, hrawlen1]; omega)]
      · rw [hseglen]
      · rw [nsContent]
        dsimp only
        apply List.ext_getElem?
        intro i
        rw [List.getElem?_take, hsegval]
        by_cases hi : i < P.2.toNat
        · rw [if_pos hi, if_pos hi, List.getElem?_set_ne (by omega), hraw1 i hi]
        · rw [if_neg hi, if_neg hi]

/-! ### Validity of grow_zero, cpy_len and trim -/

theorem valid_len_le_alloc {s : NiString} (hv : Valid s) : s.lenF ≤ ni_string_alloc s := by
  by_cases h5 : s.htype = .t5
  · rw [alloc_of_t5 h5]
  · rw [alloc_of_ne_t5 h5]
    exact (valid_not_t5 hv h5).1

theorem valid_alloc_lt_raw {s : NiString} (hv : Valid s) :
    ni_string_alloc s < s.raw.length := by
  by_cases h5 : s.htype = .t5
  · rw [alloc_of_t5 h5]
    exact valid_len_lt_raw hv
  · rw [alloc_of_ne_t5 h5]
    obtain ⟨_, _, h3, _⟩ := valid_not_t5 hv h5
    omega

theorem valid_alloc_lt_hdr {s : NiString} (hv : Valid s) :
    ni_string_alloc s < hdrLenMax s.htype := by
  by_cases h5 : s.htype = .t5
  · rw [alloc_of_t5 h5]
    exact valid_len_lt_hdr hv
  · rw [alloc_of_ne_t5 h5]
    exact (valid_not_t5 hv h5).2.1

theorem grow_zero_spec (s : NiString) (n : Nat) (hv : Valid s)
    (hov : s.lenF + n + NI_STRING_MAX_PREALLOC < SIZE_T_MOD) :
    Valid (ni_string_grow_zero s n) := by
  unfold ni_string_grow_zero
  simp only [ni_string_len]
  split_ifs with hle
  · exact hv
  · have hov2 : s.lenF + (n - s.lenF) + NI_STRING_MAX_PREALLOC < SIZE_T_MOD := by omega
    obtain ⟨hv1, hlen1, hav1, hpt1⟩ := make_room_spec s (n - s.lenF) hv hov2
    set s1 := ni_string_make_room_for s (n - s.lenF) with hs1
    have hne1 : s1.htype ≠ .t5 := ne_t5_of_avail_pos (by omega)
    obtain ⟨hle1, hmax1, hraw1, hterm1⟩ := valid_not_t5 hv1 hne1
    rw [hlen1] at hle1
    rw [avail_of_ne_t5 hne1, hlen1] at hav1
    have hnfit : n ≤ s1.allocF := by omega
    have hres : ni_string_set_len
        { s1 with raw := writeBytes s1.raw s.lenF (List.replicate (n - s.lenF + 1) 0) } n =
        ⟨s1.htype, n % hdrLenMax s1.htype, s1.allocF,
          writeBytes s1.raw s.lenF (List.replicate (n - s.lenF + 1) 0)⟩ := rfl
    rw [hres, Nat.mod_eq_of_lt (by omega)]
    apply valid_mk_not_t5 hne1 hnfit hmax1
    · rw [writeBytes_length]
      exact hraw1
    · rw [writeBytes_getElem?_in _ _ _ _ (by omega)
        (by simp only [List.length_replicate]; omega)
        (by simp only [List.length_replicate]; omega)]
      rw [List.getElem?_replicate, if_pos (by omega)]

theorem cpy_len_spec (s : NiString) (t : List Nat) (hv : Valid s)
    (hov : s.lenF + t.length + NI_STRING_MAX_PREALLOC < SIZE_T_MOD) :
    Valid (ni_string_cpy_len s t) := by
  have hlenle : s.lenF ≤ ni_string_alloc s := valid_len_le_alloc hv
  unfold ni_string_cpy_len
  simp only [ni_string_len]
  set s1 := (if ni_string_alloc s < t.length then
      ni_string_make_room_for s (t.length - s.lenF) else s) with hs1
  have hfacts : Valid s1 ∧ t.length ≤ ni_string_alloc s1 := by
    rw [hs1]
    split_ifs with hc
    · have hov2 : s.lenF + (t.length - s.lenF) + NI_STRING_MAX_PREALLOC < SIZE_T_MOD := by
        omega
      obtain ⟨hv1, hlen1, hav1, _⟩ := make_room_spec s (t.length - s.lenF) hv hov2
      refine ⟨hv1, ?_⟩
      have hne1 : (ni_string_make_room_for s (t.length - s.lenF)).htype ≠ .t5 :=
        ne_t5_of_avail_pos (by omega)
      rw [alloc_of_ne_t5 hne1]
      rw [avail_of_ne_t5 hne1, hlen1] at hav1
      omega
    · exact ⟨hv, le_of_not_lt hc⟩
  obtain ⟨hv1, hA⟩ := hfacts
  have hAr : ni_string_alloc s1 < s1.raw.length := valid_alloc_lt_raw hv1
  have hAh : ni_string_alloc s1 < hdrLenMax s1.htype := valid_alloc_lt_hdr hv1
  have hres : ni_string_set_len
      { s1 with raw := (writeBytes s1.raw 0 t).set t.length 0 } t.length =
      ⟨s1.htype, t.length % hdrLenMax s1.htype, s1.allocF,
        (writeBytes s1.raw 0 t).set t.length 0⟩ := rfl
  show Valid (ni_string_set_len { s1 with raw := (writeBytes s1.raw 0 t).set t.length 0 }
    t.length)
  rw [hres, Nat.mod_eq_of_lt (by omega)]
  have hwlen : ((writeBytes s1.raw 0 t).set t.length 0).length = s1.raw.length := by
    rw [List.length_set, writeBytes_length]
  by_cases h5 : s1.htype = .t5
  · apply valid_mk_t5 h5
    · have := valid_len_lt_hdr hv1
      rw [h5] at this
      simp only [hdrLenMax] at this
      rw [alloc_of_t5 h5] at hA
      omega
    · rw [hwlen]
      rw [alloc_of_t5 h5] at hA
      have := valid_len_lt_raw hv1
      omega
    · rw [List.getElem?_set_self (by rw [writeBytes_length]; omega)]
  · rw [alloc_of_ne_t5 h5] at hA hAh hAr
    apply valid_mk_not_t5 h5 hA hAh
    · rw [hwlen]
      exact (valid_not_t5 hv1 h5).2.2.1
    · rw [List.getElem?_set_self (by rw [writeBytes_length]; omega)]

theorem trim_spec (s : NiString) (cset : List Nat) (hv : Valid s) :
    Valid (ni_string_trim s cset) := by
  have hrawlt := valid_len_lt_raw hv
  have hhdr := valid_len_lt_hdr hv
  unfold ni_string_trim
  simp only [ni_string_len]
  set content := s.raw.take s.lenF with hcdef
  set sp := (content.takeWhile (memB cset)).length with hspdef
  set newC := (content.drop sp).rdropWhile (memB cset) with hnCdef
  have hclen : content.length = s.lenF := by
    rw [hcdef, List.length_take]
    omega
  have hnewlen : newC.length ≤ s.lenF := by
    calc newC.length ≤ (content.drop sp).length := by
          rw [hnCdef, List.rdropWhile]
          simpa using (List.dropWhile_sublist (l := (content.drop sp).reverse)
            (memB cset)).length_le
      _ ≤ content.length := by rw [List.length_drop]; omega
      _ = s.lenF := hclen
  set raw1 := (if sp ≠ 0 then writeBytes s.raw 0 newC else s.raw) with hr1def
  have hr1len : raw1.length = s.raw.length := by
    rw [hr1def]
    split_ifs
    · rw [writeBytes_length]
    · rfl
  have hres : ni_string_set_len { s with raw := raw1.set newC.length 0 } newC.length =
      ⟨s.htype, newC.length % hdrLenMax s.htype, s.allocF, raw1.set newC.length 0⟩ := rfl
  rw [hres, Nat.mod_eq_of_lt (by omega)]
  have hwlen : (raw1.set newC.length 0).length = s.raw.length := by
    rw [List.length_set, hr1len]
  by_cases h5 : s.htype = .t5
  · apply valid_mk_t5 h5
    · rw [h5] at hhdr
      simp only [hdrLenMax] at hhdr
      omega
    · rw [hwlen]
      omega
    · rw [List.getElem?_set_self (by rw [hr1len]; omega)]
  · obtain ⟨h1, h2, h3, h4⟩ := valid_not_t5 hv h5
    apply valid_mk_not_t5 h5 (by omega) h2
    · rw [hwlen]
      exact h3
    · rw [List.getElem?_set_self (by rw [hr1len]; omega)]

/-! ### The bundle for ni_string_cat_fmt -/

theorem incr_len_pos_eq {s : NiString} (hne : s.htype ≠ .t5) (l : Nat)
    (hle : s.lenF + l ≤ s.allocF) (hmax : s.allocF < hdrLenMax s.htype) :
    ni_string_incr_len s (l : Int) =
      some ⟨s.htype, s.lenF + l, s.allocF, s.raw.set (s.lenF + l) 0⟩ := by
  unfold ni_string_incr_len
  split
  case h_1 heq => exact absurd heq hne
  case h_2 x heq =>
    rw [if_pos (Or.inl ⟨by omega, by omega⟩)]
    have hX : ((s.lenF : Int) + (l : Int)).toNat = s.lenF + l := by omega
    rw [hX, Nat.mod_eq_of_lt (by omega)]

theorem fmt_s0_spec (s : NiString) (hv : Valid s)
    (hov : s.lenF + 1 + NI_STRING_MAX_PREALLOC < SIZE_T_MOD) :
    Valid (if ni_string_avail s = 0 then ni_string_make_room_for s 1 else s) ∧
    (if ni_string_avail s = 0 then ni_string_make_room_for s 1 else s).lenF = s.lenF ∧
    nsContent (if ni_string_avail s = 0 then ni_string_make_room_for s 1 else s) =
      nsContent s ∧
    1 ≤ ni_string_avail
      (if ni_string_avail s = 0 then ni_string_make_room_for s 1 else s) ∧
    (if ni_string_avail s = 0 then ni_string_make_room_for s 1 else s).htype ≠ .t5 := by
  split_ifs with hz
  · obtain ⟨hv1, hl1, ha1, _⟩ := make_room_spec s 1 hv (by omega)
    exact ⟨hv1, hl1, make_room_content s 1 hv (by omega), ha1,
      ne_t5_of_avail_pos (by omega)⟩
  · exact ⟨hv, rfl, rfl, by omega, ne_t5_of_avail_pos (by omega)⟩

theorem fmt_char_step (s0 : NiString) (c i : Nat) (hv0 : Valid s0)
    (hne0 : s0.htype ≠ .t5) (hav : 1 ≤ ni_string_avail s0) (hi : i = s0.lenF) :
    ni_string_incr_len { s0 with raw := s0.raw.set i c } 1 =
      some (ni_string_cat_len s0 [c]) := by
  subst hi
  obtain ⟨hle0, hmax0, hlenr0, _⟩ := valid_not_t5 hv0 hne0
  rw [avail_of_ne_t5 hne0] at hav
  have h1 : (1 : Int) = ((1 : Nat) : Int) := rfl
  rw [h1, incr_len_pos_eq (s := { s0 with raw := s0.raw.set s0.lenF c }) hne0 1
    (show s0.lenF + 1 ≤ s0.allocF by omega) hmax0]
  have hcat : ni_string_cat_len s0 [c] =
      ⟨(ni_string_make_room_for s0 1).htype,
        (s0.lenF + 1) % hdrLenMax (ni_string_make_room_for s0 1).htype,
        (ni_string_make_room_for s0 1).allocF,
        (writeBytes (ni_string_make_room_for s0 1).raw s0.lenF [c]).set
          (s0.lenF + 1) 0⟩ := rfl
  have hmr : ni_string_make_room_for s0 1 = s0 :=
    make_room_of_le (by rw [avail_of_ne_t5 hne0]; omega)
  rw [hcat, hmr, Nat.mod_eq_of_lt (by omega)]
  rfl

theorem fmt_verb_step (s0 : NiString) (B : List Nat) (i : Nat) (hv0 : Valid s0)
    (hne0 : s0.htype ≠ .t5) (hi : i = s0.lenF)
    (hov : s0.lenF + B.length + NI_STRING_MAX_PREALLOC < SIZE_T_MOD) :
    ni_string_incr_len
      { (if ni_string_avail s0 < B.length then
            ni_string_make_room_for s0 B.length else s0) with
        raw := writeBytes
          (if ni_string_avail s0 < B.length then
            ni_string_make_room_for s0 B.length else s0).raw i B }
      (B.length : Int) = some (ni_string_cat_len s0 B) := by
  subst hi
  have hs1eq : (if ni_string_avail s0 < B.length then
      ni_string_make_room_for s0 B.length else s0) =
      ni_string_make_room_for s0 B.length := by
    split_ifs with hc
    · rfl
    · exact (make_room_of_le (le_of_not_lt hc)).symm
  rw [hs1eq]
  obtain ⟨hv1, hlen1, hav1, _⟩ := make_room_spec s0 B.length hv0 hov
  have hne1 : (ni_string_make_room_for s0 B.length).htype ≠ .t5 := by
    by_cases hg : B.length ≤ ni_string_avail s0
    · rw [make_room_of_le hg]
      exact hne0
    · rw [make_room_htype_grow hg]
      exact growType_ne_t5 _ _
  obtain ⟨hle1, hmax1, hlenr1, _⟩ := valid_not_t5 hv1 hne1
  rw [avail_of_ne_t5 hne1, hlen1] at hav1
  rw [incr_len_pos_eq
    (s := { ni_string_make_room_for s0 B.length with
      raw := writeBytes (ni_string_make_room_for s0 B.length).raw s0.lenF B })
    hne1 B.length (show _ by simp only; omega) (show _ by simp only; exact hmax1)]
  have hcat : ni_string_cat_len s0 B =
      ⟨(ni_string_make_room_for s0 B.length).htype,
        (s0.lenF + B.length) % hdrLenMax (ni_string_make_room_for s0 B.length).htype,
        (ni_string_make_room_for s0 B.length).allocF,
        (writeBytes (ni_string_make_room_for s0 B.length).raw s0.lenF B).set
          (s0.lenF + B.length) 0⟩ := rfl
  rw [hcat, Nat.mod_eq_of_lt (by omega)]
  simp only [hlen1]

theorem cat_fmt_go_nil (fuel : Nat) (s : NiString) (args : List FmtArg) (hv : Valid s) :
    ∃ r, ni_string_cat_fmt_go (fuel + 1) s [] args s.lenF = some r ∧
      r.lenF = s.lenF + (fmtRender [] args).length ∧
      nsContent r = nsContent s ++ fmtRender [] args ∧ Valid r := by
  have hlt := valid_len_lt_raw hv
  refine ⟨{ s with raw := s.raw.set s.lenF 0 }, rfl,
    by simp [fmtRender], ?_, ?_⟩
  · simp only [fmtRender, List.append_nil]
    show List.take s.lenF (s.raw.set s.lenF 0) = List.take s.lenF s.raw
    apply take_congr_getElem?
    intro i hi
    exact List.getElem?_set_ne (by omega)
  · by_cases h5 : s.htype = .t5
    · obtain ⟨h32, hlr, _⟩ := valid_t5 hv h5
      exact valid_mk_t5 h5 h32 (by simp only [List.length_set]; omega)
        (by rw [List.getElem?_set_self (by omega)])
    · obtain ⟨h1, h2, h3, _⟩ := valid_not_t5 hv h5
      exact valid_mk_not_t5 h5 h1 h2 (by simp only [List.length_set]; exact h3)
        (by rw [List.getElem?_set_self (by omega)])

theorem cat_fmt_go_spec (fuel : Nat) : ∀ (f : List Nat), f.length < fuel →
    ∀ (s : NiString) (args : List FmtArg), Valid s →
    s.lenF + (fmtRender f args).length + 2 * NI_STRING_MAX_PREALLOC < SIZE_T_MOD →
    ∃ r, ni_string_cat_fmt_go fuel s f args s.lenF = some r ∧
      r.lenF = s.lenF + (fmtRender f args).length ∧
      nsContent r = nsContent s ++ fmtRender f args ∧ Valid r := by
  induction fuel with
  | zero => intro f hf; omega
  | succ n ih =>
    intro f hf s args hv hov
    have hM : 1 ≤ NI_STRING_MAX_PREALLOC := by norm_num [NI_STRING_MAX_PREALLOC]
    cases f with
    | nil => exact cat_fmt_go_nil n s args hv
    | cons c f1 =>
      simp only [List.length_cons] at hf
      obtain ⟨hv0, hl0, hc0, hav0, hne0⟩ := fmt_s0_spec s hv (by omega)
      by_cases hc : c = 37
      · subst hc
        cases f1 with
        | nil =>
          have hrl : fmtRender [37] args = [0] := rfl
          rw [hrl] at hov ⊢
          simp only [List.length_cons, List.length_nil] at hov
          simp only [ni_string_cat_fmt_go, if_true]
          set s0 := if ni_string_avail s = 0 then ni_string_make_room_for s 1 else s
            with hs0
          have hstep := fmt_char_step s0 0 s.lenF hv0 hne0 hav0 hl0.symm
          rw [hstep]
          have hc1 : ([(0 : Nat)] : List Nat).length = 1 := rfl
          obtain ⟨hv2, hl2, hcnt2⟩ := cat_len_spec s0 [0] hv0 (by omega)
          obtain ⟨r, hr, hrlen, hrcnt, hrv⟩ := ih [] (by omega)
            (ni_string_cat_len s0 [0]) args hv2
            (by simp only [fmtRender, List.length_nil]; omega)
          refine ⟨r, ?_, ?_, ?_, hrv⟩
          · show ni_string_cat_fmt_go n (ni_string_cat_len s0 [0]) [] args
              (s.lenF + 1) = some r
            rw [show s.lenF + 1 = (ni_string_cat_len s0 [0]).lenF by omega]
            exact hr
          · simp only [fmtRender, List.length_nil] at hrlen
            simp only [List.length_cons, List.length_nil]
            omega
          · rw [hrcnt, hcnt2, hc0]
            simp [fmtRender]
        | cons next f2 =>
          simp only [List.length_cons] at hf
          by_cases h1 : next = 115 ∨ next = 83
          · have hrl : fmtRender (37 :: next :: f2) args =
                nextStrArg args ++ fmtRender f2 args.tail := by
              simp only [fmtRender, if_true]
              rw [if_pos h1]
            rw [hrl] at hov ⊢
            simp only [ni_string_cat_fmt_go, if_true]
            rw [if_pos h1]
            set s0 := if ni_string_avail s = 0 then ni_string_make_room_for s 1 else s
              with hs0
            rw [List.length_append] at hov
            generalize hB : nextStrArg args = B at *
            have hstep := fmt_verb_step s0 B s.lenF hv0 hne0 hl0.symm (by omega)
            rw [hstep]
            obtain ⟨hv2, hl2, hcnt2⟩ := cat_len_spec s0 B hv0 (by omega)
            obtain ⟨r, hr, hrlen, hrcnt, hrv⟩ := ih f2 (by omega)
              (ni_string_cat_len s0 B) args.tail hv2 (by omega)
            refine ⟨r, ?_, ?_, ?_, hrv⟩
            · show ni_string_cat_fmt_go n (ni_string_cat_len s0 B) f2 args.tail
                (s.lenF + B.length) = some r
              rw [show s.lenF + B.length = (ni_string_cat_len s0 B).lenF by omega]
              exact hr
            · rw [List.length_append]
              omega
            · rw [hrcnt, hcnt2, hc0, List.append_assoc]
          · by_cases h2 : next = 105 ∨ next = 73
            · have hrl : fmtRender (37 :: next :: f2) args =
                  ni_string_ll2str (nextIntArg args) ++ fmtRender f2 args.tail := by
                simp only [fmtRender, if_true]
                rw [if_neg h1, if_pos h2]
              rw [hrl] at hov ⊢
              simp only [ni_string_cat_fmt_go, if_true]
              rw [if_neg h1, if_pos h2]
              set s0 := if ni_string_avail s = 0 then ni_string_make_room_for s 1 else s
                with hs0
              rw [List.length_append] at hov
              generalize hB : ni_string_ll2str (nextIntArg args) = B at *
              have hstep := fmt_verb_step s0 B s.lenF hv0 hne0 hl0.symm (by omega)
              rw [hstep]
              obtain ⟨hv2, hl2, hcnt2⟩ := cat_len_spec s0 B hv0 (by omega)
              obtain ⟨r, hr, hrlen, hrcnt, hrv⟩ := ih f2 (by omega)
                (ni_string_cat_len s0 B) args.tail hv2 (by omega)
              refine ⟨r, ?_, ?_, ?_, hrv⟩
              · show ni_string_cat_fmt_go n (ni_string_cat_len s0 B) f2 args.tail
                  (s.lenF + B.length) = some r
                rw [show s.lenF + B.length = (ni_string_cat_len s0 B).lenF by omega]
                exact hr
              · rw [List.length_append]
                omega
              · rw [hrcnt, hcnt2, hc0, List.append_assoc]
            · by_cases h3 : next = 117 ∨ next = 85
              · have hrl : fmtRender (37 :: next :: f2) args =
                    ni_string_ull2str (nextUIntArg args) ++ fmtRender f2 args.tail := by
                  simp only [fmtRender, if_true]
                  rw [if_neg h1, if_neg h2, if_pos h3]
                rw [hrl] at hov ⊢
                simp only [ni_string_cat_fmt_go, if_true]
                rw [if_neg h1, if_neg h2, if_pos h3]
                set s0 := if ni_string_avail s = 0 then ni_string_make_room_for s 1 else s
                  with hs0
                rw [List.length_append] at hov
                generalize hB : ni_string_ull2str (nextUIntArg args) = B at *
                have hstep := fmt_verb_step s0 B s.lenF hv0 hne0 hl0.symm (by omega)
                rw [hstep]
                obtain ⟨hv2, hl2, hcnt2⟩ := cat_len_spec s0 B hv0 (by omega)
                obtain ⟨r, hr, hrlen, hrcnt, hrv⟩ := ih f2 (by omega)
                  (ni_string_cat_len s0 B) args.tail hv2 (by omega)
                refine ⟨r, ?_, ?_, ?_, hrv⟩
                · show ni_string_cat_fmt_go n (ni_string_cat_len s0 B) f2 args.tail
                    (s.lenF + B.length) = some r
                  rw [show s.lenF + B.length = (ni_string_cat_len s0 B).lenF by omega]
                  exact hr
                · rw [List.length_append]
                  omega
                · rw [hrcnt, hcnt2, hc0, List.append_assoc]
              · have hrl : fmtRender (37 :: next :: f2) args =
                    next :: fmtRender f2 args := by
                  simp only [fmtRender, if_true]
                  rw [if_neg h1, if_neg h2, if_neg h3]
                rw [hrl] at hov ⊢
                simp only [ni_string_cat_fmt_go, if_true]
                rw [if_neg h1, if_neg h2, if_neg h3]
                set s0 := if ni_string_avail s = 0 then ni_string_make_room_for s 1 else s
                  with hs0
                simp only [List.length_cons] at hov
                have hstep := fmt_char_step s0 next s.lenF hv0 hne0 hav0 hl0.symm
                rw [hstep]
                have hc1 : ([next] : List Nat).length = 1 := rfl
                obtain ⟨hv2, hl2, hcnt2⟩ := cat_len_spec s0 [next] hv0 (by omega)
                obtain ⟨r, hr, hrlen, hrcnt, hrv⟩ := ih f2 (by omega)
                  (ni_string_cat_len s0 [next]) args hv2 (by omega)
                refine ⟨r, ?_, ?_, ?_, hrv⟩
                · show ni_string_cat_fmt_go n (ni_string_cat_len s0 [next]) f2 args
                    (s.lenF + 1) = some r
                  rw [show s.lenF + 1 = (ni_string_cat_len s0 [next]).lenF by omega]
                  exact hr
                · simp only [List.length_cons]
                  omega
                · rw [hrcnt, hcnt2, hc0]
                  simp
      · have hrl : fmtRender (c :: f1) args = c :: fmtRender f1 args := by
          cases f1 with
          | nil =>
            simp only [fmtRender]
            rw [if_neg hc]
          | cons a b =>
            simp only [fmtRender]
            rw [if_neg hc]
        have hgo : ni_string_cat_fmt_go (n + 1) s (c :: f1) args s.lenF =
            (match ni_string_incr_len
                { (if ni_string_avail s = 0 then ni_string_make_room_for s 1 else s) with
                  raw := (if ni_string_avail s = 0 then
                    ni_string_make_room_for s 1 else s).raw.set s.lenF c } 1 with
              | none => none
              | some s2 => ni_string_cat_fmt_go n s2 f1 args (s.lenF + 1)) := by
          cases f1 with
          | nil =>
            simp only [ni_string_cat_fmt_go]
            rw [if_neg hc]
          | cons a b =>
            simp only [ni_string_cat_fmt_go]
            rw [if_neg hc]
        rw [hrl] at hov ⊢
        rw [hgo]
        set s0 := if ni_string_avail s = 0 then ni_string_make_room_for s 1 else s
          with hs0
        simp only [List.length_cons] at hov
        have hstep := fmt_char_step s0 c s.lenF hv0 hne0 hav0 hl0.symm
        rw [hstep]
        have hc1 : ([c] : List Nat).length = 1 := rfl
        obtain ⟨hv2, hl2, hcnt2⟩ := cat_len_spec s0 [c] hv0 (by omega)
        obtain ⟨r, hr, hrlen, hrcnt, hrv⟩ := ih f1 (by omega)
          (ni_string_cat_len s0 [c]) args hv2 (by omega)
        refine ⟨r, ?_, ?_, ?_, hrv⟩
        · show ni_string_cat_fmt_go n (ni_string_cat_len s0 [c]) f1 args
            (s.lenF + 1) = some r
          rw [show s.lenF + 1 = (ni_string_cat_len s0 [c]).lenF by omega]
          exact hr
        · simp only [List.length_cons]
          omega
        · rw [hrcnt, hcnt2, hc0]
          simp

theorem cat_fmt_spec (s : NiString) (fmt : List Nat) (args : List FmtArg) (hv : Valid s)
    (hov : s.lenF + (fmtRender fmt args).length + 2 * NI_STRING_MAX_PREALLOC <
      SIZE_T_MOD) :
    ∃ r, ni_string_cat_fmt s fmt args = some r ∧
      r.lenF = s.lenF + (fmtRender fmt args).length ∧
      nsContent r = nsContent s ++ fmtRender fmt args ∧ Valid r :=
  cat_fmt_go_spec (fmt.length + 1) fmt (by omega) s args hv hov

/-! ### Lemmas for ni_string_split_len -/

theorem findSep_le {sep : List Nat} (hsep : 1 ≤ sep.length) :
    ∀ (s : List Nat) (j : Nat), findSep s sep = some j → j + sep.length ≤ s.length := by
  intro s
  induction s with
  | nil =>
    intro j h
    rw [findSep] at h
    by_cases hc : (List.take sep.length ([] : List Nat)) = sep
    · rw [List.take_nil] at hc
      subst hc
      simp at hsep
    · rw [if_neg hc] at h
      simp at h
  | cons a s2 ih =>
    intro j h
    rw [findSep] at h
    by_cases hc : (a :: s2).take sep.length = sep
    · rw [if_pos hc] at h
      have hl : sep.length ≤ (a :: s2).length := by
        have := congrArg List.length hc
        rw [List.length_take] at this
        omega
      cases h
      omega
    · rw [if_neg hc] at h
      simp only [Option.map_eq_some'] at h
      obtain ⟨j2, hj2, rfl⟩ := h
      have := ih j2 hj2
      simp only [List.length_cons]
      omega

theorem findSep_at {sep : List Nat} :
    ∀ (s : List Nat) (j : Nat), findSep s sep = some j →
      (s.drop j).take sep.length = sep := by
  intro s
  induction s with
  | nil =>
    intro j h
    rw [findSep] at h
    by_cases hc : (List.take sep.length ([] : List Nat)) = sep
    · rw [if_pos hc] at h
      cases h
      simpa using hc
    · rw [if_neg hc] at h
      simp at h
  | cons a s2 ih =>
    intro j h
    rw [findSep] at h
    by_cases hc : (a :: s2).take sep.length = sep
    · rw [if_pos hc] at h
      cases h
      simpa using hc
    · rw [if_neg hc] at h
      simp only [Option.map_eq_some'] at h
      obtain ⟨j2, hj2, rfl⟩ := h
      rw [List.drop_succ_cons]
      exact ih j2 hj2

theorem splitLoopGo_ne_nil (fuel : Nat) (sep s : List Nat) :
    splitLoopGo fuel sep s ≠ [] := by
  cases fuel with
  | zero => simp [splitLoopGo]
  | succ n =>
    rw [splitLoopGo]
    cases findSep s sep <;> simp

theorem joinSep_cons (sep t : List Nat) (ts : List (List Nat)) (h : ts ≠ []) :
    joinSep sep (t :: ts) = t ++ sep ++ joinSep sep ts := by
  cases ts with
  | nil => exact absurd rfl h
  | cons u us =>
    rw [joinSep]
    simp

theorem splitLoopGo_join {sep : List Nat} (hsep : 1 ≤ sep.length) :
    ∀ (fuel : Nat) (s : List Nat), s.length < fuel →
      joinSep sep (splitLoopGo fuel sep s) = s := by
  intro fuel
  induction fuel with
  | zero => intro s h; omega
  | succ n ih =>
    intro s h
    rw [splitLoopGo]
    cases hfs : findSep s sep with
    | none => rw [joinSep]
    | some j =>
      have hle := findSep_le hsep s j hfs
      have hat := findSep_at s j hfs
      rw [joinSep_cons _ _ _ (splitLoopGo_ne_nil _ _ _),
        ih (s.drop (j + sep.length)) (by rw [List.length_drop]; omega)]
      calc s.take j ++ sep ++ s.drop (j + sep.length)
          = s.take j ++ ((s.drop j).take sep.length ++ (s.drop j).drop sep.length) := by
            rw [hat, List.drop_drop, List.append_assoc, Nat.add_comm]
        _ = s := by rw [List.take_append_drop, List.take_append_drop]

theorem splitLoopGo_count {sep : List Nat} (hsep : 1 ≤ sep.length) :
    ∀ (fuel : Nat) (s : List Nat), s.length < fuel →
      (splitLoopGo fuel sep s).length = countSepGo fuel sep s + 1 := by
  intro fuel
  induction fuel with
  | zero => intro s h; omega
  | succ n ih =>
    intro s h
    rw [splitLoopGo, countSepGo]
    cases hfs : findSep s sep with
    | none => simp
    | some j =>
      have hle := findSep_le hsep s j hfs
      simp only [List.length_cons]
      rw [ih (s.drop (j + sep.length)) (by rw [List.length_drop]; omega)]

theorem split_len_spec (s sep : List Nat) (hsep : 1 ≤ sep.length) (hs : s ≠ []) :
    ni_string_split_len s sep = some (splitLoop sep s) ∧
    joinSep sep (splitLoop sep s) = s ∧
    (splitLoop sep s).length = countSep sep s + 1 := by
  refine ⟨?_, ?_, ?_⟩
  · rw [ni_string_split_len, if_neg (by omega),
      if_neg (by simp only [List.length_eq_zero]; exact hs)]
  · exact splitLoopGo_join hsep (s.length + 1) s (by omega)
  · exact splitLoopGo_count hsep (s.length + 1) s (by omega)

/-! ### Lemmas for ni_string_split_args -/

theorem parseInQ_struct : ∀ (n : Nat) (input : List Nat), input.length ≤ n →
    ∀ (cur t r : List Nat), parseInQ cur input = some (t, r) →
      r <:+ input ∧ r.length < input.length := by
  intro n
  induction n with
  | zero =>
    intro input hlen cur t r h
    have hnil : input = [] := by cases input <;> simp_all
    subst hnil
    rw [parseInQ] at h
    exact Option.noConfusion h
  | succ n ih =>
    intro input hlen cur t r h
    cases input with
    | nil =>
      rw [parseInQ] at h
      exact Option.noConfusion h
    | cons b rest =>
      simp only [List.length_cons] at hlen
      simp only [parseInQ] at h
      by_cases hb : b = 92
      · rw [if_pos hb] at h
        by_cases hre : rest = []
        · rw [if_pos hre] at h
          exact Option.noConfusion h
        · rw [if_neg hre] at h
          by_cases hc0 : rest.headD 0 = 0
          · rw [if_pos hc0] at h
            obtain ⟨h1, h2⟩ := ih rest (by omega) _ t r h
            exact ⟨h1.trans (List.suffix_cons b rest), by simp only [List.length_cons]; omega⟩
          · rw [if_neg hc0] at h
            by_cases hcx : rest.headD 0 = 120
            · rw [if_pos hcx] at h
              by_cases hhex : is_hex_digit (rest.tail.headD 0) ∧
                  is_hex_digit (rest.tail.tail.headD 0)
              · rw [if_pos hhex] at h
                obtain ⟨h1, h2⟩ := ih (rest.tail.drop 2)
                  (by simp only [List.length_drop, List.length_tail]; omega) _ t r h
                refine ⟨(h1.trans ((List.drop_suffix 2 rest.tail).trans
                  (List.tail_suffix rest))).trans (List.suffix_cons b rest), ?_⟩
                simp only [List.length_drop, List.length_tail] at h2
                simp only [List.length_cons]
                omega
              · rw [if_neg hhex] at h
                obtain ⟨h1, h2⟩ := ih rest.tail
                  (by simp only [List.length_tail]; omega) _ t r h
                refine ⟨(h1.trans (List.tail_suffix rest)).trans (List.suffix_cons b rest), ?_⟩
                simp only [List.length_tail] at h2
                simp only [List.length_cons]
                omega
            · rw [if_neg hcx] at h
              obtain ⟨h1, h2⟩ := ih rest.tail
                (by simp only [List.length_tail]; omega) _ t r h
              refine ⟨(h1.trans (List.tail_suffix rest)).trans (List.suffix_cons b rest), ?_⟩
              simp only [List.length_tail] at h2
              simp only [List.length_cons]
              omega
      · rw [if_neg hb] at h
        by_cases hb34 : b = 34
        · rw [if_pos hb34] at h
          by_cases hre : rest = []
          · rw [if_pos hre] at h
            simp only [Option.some.injEq, Prod.mk.injEq] at h
            obtain ⟨_, h2⟩ := h
            subst h2
            exact ⟨List.nil_suffix, by simp⟩
          · rw [if_neg hre] at h
            by_cases hsp : isspaceB (rest.headD 0)
            · rw [if_pos hsp] at h
              simp only [Option.some.injEq, Prod.mk.injEq] at h
              obtain ⟨_, h2⟩ := h
              subst h2
              exact ⟨List.suffix_cons b rest, by simp⟩
            · rw [if_neg hsp] at h
              exact Option.noConfusion h
        · rw [if_neg hb34] at h
          by_cases hb0 : b = 0
          · rw [if_pos hb0] at h
            exact Option.noConfusion h
          · rw [if_neg hb0] at h
            obtain ⟨h1, h2⟩ := ih rest (by omega) _ t r h
            exact ⟨h1.trans (List.suffix_cons b rest), by simp only [List.length_cons]; omega⟩

theorem parseInSq_struct : ∀ (n : Nat) (input : List Nat), input.length ≤ n →
    ∀ (cur t r : List Nat), parseInSq cur input = some (t, r) →
      r <:+ input ∧ r.length < input.length := by
  intro n
  induction n with
  | zero =>
    intro input hlen cur t r h
    have hnil : input = [] := by cases input <;> simp_all
    subst hnil
    rw [parseInSq] at h
    exact Option.noConfusion h
  | succ n ih =>
    intro input hlen cur t r h
    cases input with
    | nil =>
      rw [parseInSq] at h
      exact Option.noConfusion h
    | cons b rest =>
      simp only [List.length_cons] at hlen
      simp only [parseInSq] at h
      by_cases h1 : b = 92 ∧ rest.headD 0 = 39
      · rw [if_pos h1] at h
        obtain ⟨hs, hl⟩ := ih rest.tail (by simp only [List.length_tail]; omega) _ t r h
        refine ⟨(hs.trans (List.tail_suffix rest)).trans (List.suffix_cons b rest), ?_⟩
        simp only [List.length_tail] at hl
        simp only [List.length_cons]
        omega
      · rw [if_neg h1] at h
        by_cases h2 : b = 92 ∧ rest = []
        · rw [if_pos h2] at h
          exact Option.noConfusion h
        · rw [if_neg h2] at h
          by_cases h3 : b = 92
          · rw [if_pos h3] at h
            obtain ⟨hs, hl⟩ := ih rest (by omega) _ t r h
            exact ⟨hs.trans (List.suffix_cons b rest), by simp only [List.length_cons]; omega⟩
          · rw [if_neg h3] at h
            by_cases h4 : b = 39
            · rw [if_pos h4] at h
              by_cases hre : rest = []
              · rw [if_pos hre] at h
                simp only [Option.some.injEq, Prod.mk.injEq] at h
                obtain ⟨_, hr2⟩ := h
                subst hr2
                exact ⟨List.nil_suffix, by simp⟩
              · rw [if_neg hre] at h
                by_cases hsp : isspaceB (rest.headD 0)
                · rw [if_pos hsp] at h
                  simp only [Option.some.injEq, Prod.mk.injEq] at h
                  obtain ⟨_, hr2⟩ := h
                  subst hr2
                  exact ⟨List.suffix_cons b rest, by simp⟩
                · rw [if_neg hsp] at h
                  exact Option.noConfusion h
            · rw [if_neg h4] at h
              by_cases h5 : b = 0
              · rw [if_pos h5] at h
                exact Option.noConfusion h
              · rw [if_neg h5] at h
                obtain ⟨hs, hl⟩ := ih rest (by omega) _ t r h
                exact ⟨hs.trans (List.suffix_cons b rest), by simp only [List.length_cons]; omega⟩

theorem parseToken_struct : ∀ (n : Nat) (input : List Nat), input.length ≤ n →
    ∀ (cur t r : List Nat), parseToken cur input = some (t, r) →
      r <:+ input ∧ (input ≠ [] → r.length < input.length) := by
  intro n
  induction n with
  | zero =>
    intro input hlen cur t r h
    have hnil : input = [] := by cases input <;> simp_all
    subst hnil
    rw [parseToken] at h
    simp only [Option.some.injEq, Prod.mk.injEq] at h
    obtain ⟨_, hr2⟩ := h
    subst hr2
    exact ⟨List.nil_suffix, fun hne => absurd rfl hne⟩
  | succ n ih =>
    intro input hlen cur t r h
    cases input with
    | nil =>
      rw [parseToken] at h
      simp only [Option.some.injEq, Prod.mk.injEq] at h
      obtain ⟨_, hr2⟩ := h
      subst hr2
      exact ⟨List.nil_suffix, fun hne => absurd rfl hne⟩
    | cons b rest =>
      simp only [List.length_cons] at hlen
      simp only [parseToken] at h
      by_cases h1 : b = 32 ∨ b = 10 ∨ b = 13 ∨ b = 9
      · rw [if_pos h1] at h
        simp only [Option.some.injEq, Prod.mk.injEq] at h
        obtain ⟨_, hr2⟩ := h
        subst hr2
        exact ⟨List.suffix_cons b rest, fun _ => by simp⟩
      · rw [if_neg h1] at h
        by_cases h2 : b = 0
        · rw [if_pos h2] at h
          simp only [Option.some.injEq, Prod.mk.injEq] at h
          obtain ⟨_, hr2⟩ := h
          subst hr2
          exact ⟨List.nil_suffix, fun _ => by simp⟩
        · rw [if_neg h2] at h
          by_cases h3 : b = 34
          · rw [if_pos h3] at h
            obtain ⟨hs, hl⟩ := parseInQ_struct n rest (by omega) _ t r h
            exact ⟨hs.trans (List.suffix_cons b rest),
              fun _ => by simp only [List.length_cons]; omega⟩
          · rw [if_neg h3] at h
            by_cases h4 : b = 39
            · rw [if_pos h4] at h
              obtain ⟨hs, hl⟩ := parseInSq_struct n rest (by omega) _ t r h
              exact ⟨hs.trans (List.suffix_cons b rest),
                fun _ => by simp only [List.length_cons]; omega⟩
            · rw [if_neg h4] at h
              obtain ⟨hs, hl⟩ := ih rest (by omega) _ t r h
              refine ⟨hs.trans (List.suffix_cons b rest), fun _ => ?_⟩
              by_cases hre : rest = []
              · subst hre
                have : r = [] := List.eq_nil_of_suffix_nil hs
                subst this
                simp
              · have := hl hre
                simp only [List.length_cons]
                omega

theorem parseInQ_scan : ∀ (n : Nat) (input : List Nat), input.length ≤ n → 0 ∉ input →
    ∀ cur, scanOk ScanMode.inQ input =
      (parseInQ cur input).elim false (fun pr => scanOk ScanMode.out pr.2) := by
  intro n
  induction n with
  | zero =>
    intro input hlen h0 cur
    have hnil : input = [] := by cases input <;> simp_all
    subst hnil
    simp [parseInQ, scanOk]
  | succ n ih =>
    intro input hlen h0 cur
    cases input with
    | nil => simp [parseInQ, scanOk]
    | cons b rest =>
      simp only [List.length_cons] at hlen
      simp only [List.mem_cons, not_or] at h0
      obtain ⟨hb0, h0r⟩ := h0
      have hh : rest = [] ∨ rest.headD 0 ≠ 0 := by
        cases rest with
        | nil => exact Or.inl rfl
        | cons x xs =>
          refine Or.inr ?_
          simp only [List.headD_cons]
          exact fun h => h0r (h ▸ List.mem_cons_self x xs)
      simp only [parseInQ, scanOk]
      split_ifs
      all_goals first
        | rfl
        | (simp [scanOk]; done)
        | omega
        | exact absurd ‹rest.headD 0 = 0› (hh.resolve_left ‹¬rest = []›)
        | exact ih rest (by omega) h0r _
        | exact ih rest.tail (by simp only [List.length_tail]; omega)
            (fun hm => h0r ((List.tail_suffix rest).subset hm)) _
        | (have hdd : List.drop 2 rest.tail = List.drop 3 rest := by
             cases rest <;> rfl
           rw [hdd]
           exact ih (List.drop 3 rest) (by simp only [List.length_drop]; omega)
             (fun hm => h0r ((List.drop_suffix 3 rest).subset hm)) _)

theorem parseInSq_scan : ∀ (n : Nat) (input : List Nat), input.length ≤ n → 0 ∉ input →
    ∀ cur, scanOk ScanMode.inSq input =
      (parseInSq cur input).elim false (fun pr => scanOk ScanMode.out pr.2) := by
  intro n
  induction n with
  | zero =>
    intro input hlen h0 cur
    have hnil : input = [] := by cases input <;> simp_all
    subst hnil
    simp [parseInSq, scanOk]
  | succ n ih =>
    intro input hlen h0 cur
    cases input with
    | nil => simp [parseInSq, scanOk]
    | cons b rest =>
      simp only [List.length_cons] at hlen
      simp only [List.mem_cons, not_or] at h0
      obtain ⟨hb0, h0r⟩ := h0
      simp only [parseInSq, scanOk]
      split_ifs
      all_goals first
        | rfl
        | (simp [scanOk]; done)
        | omega
        | exact ih rest (by omega) h0r _
        | exact ih rest.tail (by simp only [List.length_tail]; omega)
            (fun hm => h0r ((List.tail_suffix rest).subset hm)) _

theorem parseToken_scan : ∀ (n : Nat) (input : List Nat), input.length ≤ n → 0 ∉ input →
    ∀ cur, scanOk ScanMode.out input =
      (parseToken cur input).elim false (fun pr => scanOk ScanMode.out pr.2) := by
  intro n
  induction n with
  | zero =>
    intro input hlen h0 cur
    have hnil : input = [] := by cases input <;> simp_all
    subst hnil
    simp [parseToken, scanOk]
  | succ n ih =>
    intro input hlen h0 cur
    cases input with
    | nil => simp [parseToken, scanOk]
    | cons b rest =>
      simp only [List.length_cons] at hlen
      simp only [List.mem_cons, not_or] at h0
      obtain ⟨hb0, h0r⟩ := h0
      simp only [parseToken, scanOk]
      split_ifs
      all_goals first
        | rfl
        | (simp [scanOk]; done)
        | omega
        | exact ih rest (by omega) h0r _
        | exact parseInQ_scan n rest (by omega) h0r _
        | exact parseInSq_scan n rest (by omega) h0r _

theorem scanOk_out_dropWhile : ∀ (line : List Nat),
    scanOk ScanMode.out (line.dropWhile (fun b => b != 0 && isspaceB b)) =
      scanOk ScanMode.out line := by
  intro line
  induction line with
  | nil => rfl
  | cons b t ih =>
    simp only [List.dropWhile_cons]
    by_cases hp : (b != 0 && isspaceB b) = true
    · rw [if_pos hp, ih]
      have hs : isspaceB b = true := (Bool.and_eq_true _ _ |>.mp hp).2
      have hb34 : ¬ b = 34 := by
        intro h
        subst h
        simp [isspaceB] at hs
      have hb39 : ¬ b = 39 := by
        intro h
        subst h
        simp [isspaceB] at hs
      simp only [scanOk]
      rw [if_neg hb34, if_neg hb39]
    · rw [if_neg hp]

theorem splitArgsGo_scan : ∀ (fuel : Nat) (line : List Nat), line.length < fuel →
    0 ∉ line → (splitArgsGo fuel line).isSome = scanOk ScanMode.out line := by
  intro fuel
  induction fuel with
  | zero => intro line h; omega
  | succ n ih =>
    intro line hlen h0
    simp only [splitArgsGo]
    have hscan := scanOk_out_dropWhile line
    have hsuf : line.dropWhile (fun b => b != 0 && isspaceB b) <:+ line :=
      List.dropWhile_suffix _
    generalize hL : line.dropWhile (fun b => b != 0 && isspaceB b) = L at *
    have h0L : 0 ∉ L := fun hm => h0 (hsuf.subset hm)
    have hlenL : L.length ≤ line.length := hsuf.length_le
    cases L with
    | nil =>
      rw [← hscan]
      simp [scanOk]
    | cons b t =>
      simp only [List.head?_cons]
      simp only [List.mem_cons, not_or] at h0L
      obtain ⟨hb0, h0t⟩ := h0L
      rw [if_neg (show ¬ b = 0 from fun h => hb0 h.symm)]
      have htok := parseToken_scan (b :: t).length (b :: t) le_rfl
        (by simp only [List.mem_cons, not_or]; exact ⟨hb0, h0t⟩) []
      cases hpt : parseToken [] (b :: t) with
      | none =>
        rw [hpt] at htok
        simp only [Option.elim_none] at htok
        rw [← hscan, htok]
        rfl
      | some pr =>
        obtain ⟨tok, rest2⟩ := pr
        rw [hpt] at htok
        simp only [Option.elim_some] at htok
        obtain ⟨hsuf2, hlt2⟩ := parseToken_struct (b :: t).length (b :: t) le_rfl [] tok rest2 hpt
        have h0r2 : 0 ∉ rest2 := by
          intro hm
          rcases List.mem_cons.mp (hsuf2.subset hm) with h | h
          · exact hb0 h
          · exact h0t h
        have hIH := ih rest2 (by
          have := hlt2 (by simp)
          simp only [List.length_cons] at this hlenL ⊢
          omega) h0r2
        rw [← hscan, htok, ← hIH]
        show (match splitArgsGo n rest2 with
          | none => none
          | some toks => some (tok :: toks)).isSome = (splitArgsGo n rest2).isSome
        cases splitArgsGo n rest2 <;> rfl

theorem splitArgs_blank (line : List Nat) (h : ∀ b ∈ line, isspaceB b ∧ b ≠ 0) :
    ni_string_split_args line = some [] := by
  rw [ni_string_split_args]
  cases line with
  | nil => rfl
  | cons b0 t0 =>
    simp only [splitArgsGo]
    have hdrop : (b0 :: t0).dropWhile (fun b => b != 0 && isspaceB b) = [] := by
      rw [List.dropWhile_eq_nil_iff]
      intro b hb
      obtain ⟨h1, h2⟩ := h b hb
      simp [h1, h2]
    rw [hdrop]
    rfl

/-! ### Lemmas for the ni_string_cat_repr round trip -/

theorem hexDigit_lemma : ∀ d : Nat, d < 16 →
    is_hex_digit (if d < 10 then 48 + d else 97 + (d - 10)) = true ∧
    hex_digit_to_int (if d < 10 then 48 + d else 97 + (d - 10)) = d := by decide

theorem parseInQ_esc2 (e : Nat) (cur tail' : List Nat) (he0 : ¬ e = 0)
    (hex : ¬ e = 120) :
    parseInQ cur (92 :: e :: tail') = parseInQ (cur ++ [escChar e]) tail' := by
  simp only [parseInQ, List.headD_cons, List.tail_cons, if_true]
  rw [if_neg (List.cons_ne_nil _ _), if_neg he0, if_neg hex]

theorem parseInQ_hex (H1 H2 : Nat) (cur tail' : List Nat)
    (h1 : is_hex_digit H1 = true) (h2 : is_hex_digit H2 = true) :
    parseInQ cur (92 :: 120 :: H1 :: H2 :: tail') =
      parseInQ (cur ++ [hex_digit_to_int H1 * 16 + hex_digit_to_int H2]) tail' := by
  simp only [parseInQ, List.headD_cons, List.tail_cons, if_true]
  rw [if_neg (List.cons_ne_nil _ _), if_neg (show ¬ (120 : Nat) = 0 by decide),
    if_pos (⟨h1, h2⟩ : _ ∧ _)]
  rfl

theorem parseInQ_lit (b : Nat) (cur tail' : List Nat) (hb92 : ¬ b = 92)
    (hb34 : ¬ b = 34) (hb0 : ¬ b = 0) :
    parseInQ cur (b :: tail') = parseInQ (cur ++ [b]) tail' := by
  simp only [parseInQ]
  rw [if_neg hb92, if_neg hb34, if_neg hb0]

theorem parseInQ_chunk (b : Nat) (hb : b < 256) (cur tail' : List Nat) :
    parseInQ cur (reprByte b ++ tail') = parseInQ (cur ++ [b]) tail' := by
  rw [reprByte]
  by_cases h1 : b = 92 ∨ b = 34
  · rw [if_pos h1]
    simp only [List.cons_append, List.nil_append]
    rw [parseInQ_esc2 b cur tail' (by omega) (by omega)]
    have he : escChar b = b := by
      rcases h1 with rfl | rfl <;> rfl
    rw [he]
  · rw [if_neg h1]
    by_cases h2 : b = 10
    · subst h2
      rw [if_pos rfl]
      simp only [List.cons_append, List.nil_append]
      rw [parseInQ_esc2 110 cur tail' (by decide) (by decide)]
      rfl
    · rw [if_neg h2]
      by_cases h3 : b = 13
      · subst h3
        rw [if_pos rfl]
        simp only [List.cons_append, List.nil_append]
        rw [parseInQ_esc2 114 cur tail' (by decide) (by decide)]
        rfl
      · rw [if_neg h3]
        by_cases h4 : b = 9
        · subst h4
          rw [if_pos rfl]
          simp only [List.cons_append, List.nil_append]
          rw [parseInQ_esc2 116 cur tail' (by decide) (by decide)]
          rfl
        · rw [if_neg h4]
          by_cases h5 : b = 7
          · subst h5
            rw [if_pos rfl]
            simp only [List.cons_append, List.nil_append]
            rw [parseInQ_esc2 97 cur tail' (by decide) (by decide)]
            rfl
          · rw [if_neg h5]
            by_cases h6 : b = 8
            · subst h6
              rw [if_pos rfl]
              simp only [List.cons_append, List.nil_append]
              rw [parseInQ_esc2 98 cur tail' (by decide) (by decide)]
              rfl
            · rw [if_neg h6]
              by_cases h7 : is_print b = true
              · rw [if_pos h7]
                simp only [List.cons_append, List.nil_append]
                have hble : 32 ≤ b := by
                  simp only [is_print, Bool.and_eq_true, decide_eq_true_eq] at h7
                  omega
                exact parseInQ_lit b cur tail' (by omega) (by omega) (by omega)
              · rw [if_neg h7]
                simp only [List.cons_append, List.nil_append]
                have hd1 := hexDigit_lemma (b / 16) (by omega)
                have hd2 := hexDigit_lemma (b % 16) (by omega)
                rw [parseInQ_hex _ _ cur tail' hd1.1 hd2.1, hd1.2, hd2.2,
                  show b / 16 * 16 + b % 16 = b by omega]

theorem parseInQ_repr : ∀ (x : List Nat), (∀ b ∈ x, b < 256) →
    ∀ (cur rest : List Nat), rest = [] ∨ isspaceB (rest.headD 0) = true →
    parseInQ cur (x.flatMap reprByte ++ 34 :: rest) = some (cur ++ x, rest) := by
  intro x
  induction x with
  | nil =>
    intro _ cur rest hrest
    simp only [List.flatMap_nil, List.nil_append]
    simp only [parseInQ, if_true]
    rw [if_neg (show ¬ (34 : Nat) = 92 by decide)]
    rcases hrest with rfl | hsp
    · rw [if_pos rfl]
      simp
    · by_cases hre : rest = []
      · subst hre
        rw [if_pos rfl]
        simp
      · rw [if_neg hre, if_pos hsp]
        simp
  | cons b x' ih =>
    intro hx cur rest hrest
    have hb : b < 256 := hx b (List.mem_cons_self _ _)
    simp only [List.flatMap_cons]
    rw [List.append_assoc, parseInQ_chunk b hb,
      ih (fun c hc => hx c (List.mem_cons_of_mem _ hc)) (cur ++ [b]) rest hrest]
    simp

theorem catReprLoop_spec : ∀ (p : List Nat) (s : NiString), Valid s →
    s.lenF + (p.flatMap reprByte).length + NI_STRING_MAX_PREALLOC + 1 < SIZE_T_MOD →
    Valid (catReprLoop s p) ∧
    (catReprLoop s p).lenF = s.lenF + (p.flatMap reprByte).length + 1 ∧
    nsContent (catReprLoop s p) = nsContent s ++ p.flatMap reprByte ++ [34] := by
  intro p
  induction p with
  | nil =>
    intro s hv hov
    have hc1 : ([(34 : Nat)] : List Nat).length = 1 := rfl
    obtain ⟨hv1, hl1, hcnt1⟩ := cat_len_spec s [34] hv (by omega)
    rw [catReprLoop]
    simp only [List.flatMap_nil, List.nil_append, List.length_nil]
    exact ⟨hv1, by omega, by rw [hcnt1]; simp⟩
  | cons b p' ih =>
    intro s hv hov
    simp only [List.flatMap_cons, List.length_append] at hov ⊢
    obtain ⟨hv1, hl1, hcnt1⟩ := cat_len_spec s (reprByte b) hv (by omega)
    rw [catReprLoop]
    obtain ⟨hv2, hl2, hcnt2⟩ := ih (ni_string_cat_len s (reprByte b)) hv1 (by omega)
    refine ⟨hv2, by omega, ?_⟩
    rw [hcnt2, hcnt1]
    simp [List.append_assoc]

theorem cat_repr_spec (s : NiString) (p : List Nat) (hv : Valid s)
    (hov : s.lenF + (reprBytes p).length + 2 * NI_STRING_MAX_PREALLOC < SIZE_T_MOD) :
    Valid (ni_string_cat_repr s p) ∧
    (ni_string_cat_repr s p).lenF = s.lenF + (reprBytes p).length ∧
    nsContent (ni_string_cat_repr s p) = nsContent s ++ reprBytes p := by
  have hM : 1 ≤ NI_STRING_MAX_PREALLOC := by norm_num [NI_STRING_MAX_PREALLOC]
  have hrb : (reprBytes p).length = (p.flatMap reprByte).length + 2 := by
    simp [reprBytes]
  have hc1 : ([(34 : Nat)] : List Nat).length = 1 := rfl
  obtain ⟨hv1, hl1, hcnt1⟩ := cat_len_spec s [34] hv (by omega)
  rw [ni_string_cat_repr]
  obtain ⟨hv2, hl2, hcnt2⟩ := catReprLoop_spec p (ni_string_cat_len s [34]) hv1
    (by omega)
  refine ⟨hv2, by omega, ?_⟩
  rw [hcnt2, hcnt1, reprBytes]
  simp

theorem parseToken_quoted (body rest : List Nat) :
    parseToken [] (34 :: body ++ 34 :: rest) = parseInQ [] (body ++ 34 :: rest) := by
  show parseToken [] (34 :: (body ++ 34 :: rest)) = _
  simp only [parseToken, if_true]
  rw [if_neg (show ¬((34 : Nat) = 32 ∨ 34 = 10 ∨ 34 = 13 ∨ 34 = 9) by decide),
    if_neg (show ¬ (34 : Nat) = 0 by decide)]

theorem splitArgsGo_nil (fuel : Nat) (h : 1 ≤ fuel) : splitArgsGo fuel [] = some [] := by
  cases fuel with
  | zero => omega
  | succ m => rfl

theorem splitArgsGo_repr_step (m : Nat) (x rest : List Nat)
    (hx : ∀ b ∈ x, b < 256)
    (hrest : rest = [] ∨ isspaceB (rest.headD 0) = true) :
    splitArgsGo (m + 1) (34 :: (x.flatMap reprByte ++ 34 :: rest)) =
      match splitArgsGo m rest with
      | none => none
      | some toks => some (x :: toks) := by
  simp only [splitArgsGo]
  rw [List.dropWhile_cons]
  rw [if_neg (by decide)]
  simp only [List.head?_cons]
  rw [if_neg (by decide)]
  rw [show (34 : Nat) :: (x.flatMap reprByte ++ 34 :: rest) =
    34 :: x.flatMap reprByte ++ 34 :: rest by simp]
  rw [parseToken_quoted, parseInQ_repr x hx [] rest hrest]
  simp

theorem splitArgsGo_space (m : Nat) (t : List Nat) :
    splitArgsGo (m + 1) (32 :: t) = splitArgsGo (m + 1) t := by
  simp only [splitArgsGo]
  rw [List.dropWhile_cons, if_pos (by decide)]

theorem splitArgs_repr_pair (x y : List Nat) (hx : ∀ b ∈ x, b < 256)
    (hy : ∀ b ∈ y, b < 256) :
    ni_string_split_args (reprBytes x ++ 32 :: reprBytes y) = some [x, y] := by
  rw [ni_string_split_args]
  have hshape : reprBytes x ++ 32 :: reprBytes y =
      34 :: (x.flatMap reprByte ++ 34 ::
        (32 :: (34 :: (y.flatMap reprByte ++ 34 :: [])))) := by
    simp [reprBytes]
  rw [hshape]
  simp only [List.length_cons]
  rw [splitArgsGo_repr_step _ x
      (32 :: (34 :: (y.flatMap reprByte ++ 34 :: []))) hx
      (Or.inr (by rw [List.headD_cons]; decide)),
    splitArgsGo_space, splitArgsGo_repr_step _ y [] hy (Or.inl rfl),
    splitArgsGo_nil _ (by simp; omega)]

/-! ### Invariant observables shared by the claims -/

theorem inv_of_valid {s : NiString} (hv : Valid s) :
    ni_string_len s ≤ ni_string_alloc s ∧ s.raw[ni_string_len s]? = some 0 :=
  ⟨valid_len_le_alloc hv, valid_term hv⟩

theorem takeWhile_length_le (p : Nat → Bool) (l : List Nat) :
    (l.takeWhile p).length ≤ l.length := by
  induction l with
  | nil => simp
  | cons a t ih =>
    rw [List.takeWhile_cons]
    split_ifs
    · simp only [List.length_cons]
      omega
    · simp

/-! ### The ten claims -/

/-- C1 (amended): every mutating operation of the library — append
(ni_string_cat_len and the printf-style wrappers), copy, grow_zero, trim,
range, incr_len, cat_fmt, make_room_for and remove_free_space — returns a
buffer with length at most the capacity and a NUL byte at offset length,
provided the arithmetic stays below SIZE_MAX and, for ni_string_incr_len,
the delta satisfies the corrected precondition: the original claim fails
as stated because incr_len on an Embedded-5 buffer accepts any positive
delta below 32 without the buffer having that capacity (see the
counterexample, where the successful call leaves no NUL inside the
region). -/
theorem C1_mutators_preserve_invariant :
    (∀ s t, Valid s → s.lenF + t.length + NI_STRING_MAX_PREALLOC < SIZE_T_MOD →
      ni_string_len (ni_string_cat_len s t) ≤ ni_string_alloc (ni_string_cat_len s t) ∧
      (ni_string_cat_len s t).raw[ni_string_len (ni_string_cat_len s t)]? = some 0) ∧
    (∀ s t, Valid s → s.lenF + t.length + NI_STRING_MAX_PREALLOC < SIZE_T_MOD →
      ni_string_len (ni_string_cpy_len s t) ≤ ni_string_alloc (ni_string_cpy_len s t) ∧
      (ni_string_cpy_len s t).raw[ni_string_len (ni_string_cpy_len s t)]? = some 0) ∧
    (∀ s out, Valid s → s.lenF + out.length + NI_STRING_MAX_PREALLOC < SIZE_T_MOD →
      ni_string_len (ni_string_cat_vprintf s out) ≤
        ni_string_alloc (ni_string_cat_vprintf s out) ∧
      (ni_string_cat_vprintf s out).raw[ni_string_len (ni_string_cat_vprintf s out)]? =
        some 0) ∧
    (∀ s n, Valid s → s.lenF + n + NI_STRING_MAX_PREALLOC < SIZE_T_MOD →
      ni_string_len (ni_string_grow_zero s n) ≤ ni_string_alloc (ni_string_grow_zero s n) ∧
      (ni_string_grow_zero s n).raw[ni_string_len (ni_string_grow_zero s n)]? = some 0) ∧
    (∀ s cset, Valid s →
      ni_string_len (ni_string_trim s cset) ≤ ni_string_alloc (ni_string_trim s cset) ∧
      (ni_string_trim s cset).raw[ni_string_len (ni_string_trim s cset)]? = some 0) ∧
    (∀ s st en, Valid s →
      ni_string_len (ni_string_range s st en) ≤ ni_string_alloc (ni_string_range s st en) ∧
      (ni_string_range s st en).raw[ni_string_len (ni_string_range s st en)]? = some 0) ∧
    (∀ s incr, Valid s →
      ((0 ≤ incr ∧ incr ≤ (ni_string_avail s : Int) ∧ ¬(s.htype = HType.t5 ∧ incr = 0)) ∨
        (incr < 0 ∧ -incr ≤ (s.lenF : Int))) →
      (ni_string_incr_len s incr).isSome = true ∧
      ni_string_len ((ni_string_incr_len s incr).getD s) ≤
        ni_string_alloc ((ni_string_incr_len s incr).getD s) ∧
      ((ni_string_incr_len s incr).getD s).raw[
        ni_string_len ((ni_string_incr_len s incr).getD s)]? = some 0) ∧
    (∀ s fmt args, Valid s →
      s.lenF + (fmtRender fmt args).length + 2 * NI_STRING_MAX_PREALLOC < SIZE_T_MOD →
      (ni_string_cat_fmt s fmt args).isSome = true ∧
      ni_string_len ((ni_string_cat_fmt s fmt args).getD s) ≤
        ni_string_alloc ((ni_string_cat_fmt s fmt args).getD s) ∧
      ((ni_string_cat_fmt s fmt args).getD s).raw[
        ni_string_len ((ni_string_cat_fmt s fmt args).getD s)]? = some 0) ∧
    (∀ s addlen, Valid s → s.lenF + addlen + NI_STRING_MAX_PREALLOC < SIZE_T_MOD →
      ni_string_len (ni_string_make_room_for s addlen) ≤
        ni_string_alloc (ni_string_make_room_for s addlen) ∧
      (ni_string_make_room_for s addlen).raw[
        ni_string_len (ni_string_make_room_for s addlen)]? = some 0) ∧
    (∀ s, Valid s →
      ni_string_len (ni_string_remove_free_space s) ≤
        ni_string_alloc (ni_string_remove_free_space s) ∧
      (ni_string_remove_free_space s).raw[
        ni_string_len (ni_string_remove_free_space s)]? = some 0) := by
  refine ⟨?_, ?_, ?_, ?_, ?_, ?_, ?_, ?_, ?_, ?_⟩
  · intro s t hv hov
    exact inv_of_valid (cat_len_spec s t hv hov).1
  · intro s t hv hov
    exact inv_of_valid (cpy_len_spec s t hv hov)
  · intro s out hv hov
    have hle : (out.takeWhile (fun b => b != 0)).length ≤ out.length :=
      takeWhile_length_le _ _
    exact inv_of_valid (cat_len_spec s (out.takeWhile (fun b => b != 0)) hv (by omega)).1
  · intro s n hv hov
    exact inv_of_valid (grow_zero_spec s n hv hov)
  · intro s cset hv
    exact inv_of_valid (trim_spec s cset hv)
  · intro s st en hv
    exact inv_of_valid (range_spec s st en hv).1
  · intro s incr hv hpre
    obtain ⟨h1, _, _, _, _, _, h7⟩ := incr_len_spec s incr hv hpre
    exact ⟨h1, inv_of_valid h7⟩
  · intro s fmt args hv hov
    obtain ⟨r, hr, _, _, hrv⟩ := cat_fmt_spec s fmt args hv hov
    rw [hr]
    exact ⟨rfl, inv_of_valid hrv⟩
  · intro s addlen hv hov
    exact inv_of_valid (make_room_spec s addlen hv hov).1
  · intro s hv
    exact inv_of_valid (remove_free_space_spec s hv).1

theorem C1_witness :
    Valid (ni_string_new_len [97]) ∧ Valid exC9 ∧
    (ni_string_len (ni_string_cat_len (ni_string_new_len [97]) [98]) ≤
      ni_string_alloc (ni_string_cat_len (ni_string_new_len [97]) [98]) ∧
      (ni_string_cat_len (ni_string_new_len [97]) [98]).raw[
        ni_string_len (ni_string_cat_len (ni_string_new_len [97]) [98])]? = some 0) ∧
    (ni_string_len (ni_string_cpy_len (ni_string_new_len [97]) [98, 99]) ≤
      ni_string_alloc (ni_string_cpy_len (ni_string_new_len [97]) [98, 99]) ∧
      (ni_string_cpy_len (ni_string_new_len [97]) [98, 99]).raw[
        ni_string_len (ni_string_cpy_len (ni_string_new_len [97]) [98, 99])]? = some 0) ∧
    (ni_string_len (ni_string_cat_vprintf (ni_string_new_len [97]) [49, 50]) ≤
      ni_string_alloc (ni_string_cat_vprintf (ni_string_new_len [97]) [49, 50]) ∧
      (ni_string_cat_vprintf (ni_string_new_len [97]) [49, 50]).raw[
        ni_string_len (ni_string_cat_vprintf (ni_string_new_len [97]) [49, 50])]? =
        some 0) ∧
    (ni_string_len (ni_string_grow_zero (ni_string_new_len [97]) 3) ≤
      ni_string_alloc (ni_string_grow_zero (ni_string_new_len [97]) 3) ∧
      (ni_string_grow_zero (ni_string_new_len [97]) 3).raw[
        ni_string_len (ni_string_grow_zero (ni_string_new_len [97]) 3)]? = some 0) ∧
    (ni_string_len (ni_string_trim (ni_string_new_len [97]) [97]) ≤
      ni_string_alloc (ni_string_trim (ni_string_new_len [97]) [97]) ∧
      (ni_string_trim (ni_string_new_len [97]) [97]).raw[
        ni_string_len (ni_string_trim (ni_string_new_len [97]) [97])]? = some 0) ∧
    (ni_string_len (ni_string_range (ni_string_new_len [97]) 0 0) ≤
      ni_string_alloc (ni_string_range (ni_string_new_len [97]) 0 0) ∧
      (ni_string_range (ni_string_new_len [97]) 0 0).raw[
        ni_string_len (ni_string_range (ni_string_new_len [97]) 0 0)]? = some 0) ∧
    ((ni_string_incr_len exC9 1).isSome = true ∧
      ni_string_len ((ni_string_incr_len exC9 1).getD exC9) ≤
        ni_string_alloc ((ni_string_incr_len exC9 1).getD exC9) ∧
      ((ni_string_incr_len exC9 1).getD exC9).raw[
        ni_string_len ((ni_string_incr_len exC9 1).getD exC9)]? = some 0) ∧
    ((ni_string_cat_fmt (ni_string_new_len [97]) [37, 115] [FmtArg.aStr [98]]).isSome =
        true ∧
      ni_string_len ((ni_string_cat_fmt (ni_string_new_len [97]) [37, 115]
          [FmtArg.aStr [98]]).getD (ni_string_new_len [97])) ≤
        ni_string_alloc ((ni_string_cat_fmt (ni_string_new_len [97]) [37, 115]
          [FmtArg.aStr [98]]).getD (ni_string_new_len [97])) ∧
      ((ni_string_cat_fmt (ni_string_new_len [97]) [37, 115]
          [FmtArg.aStr [98]]).getD (ni_string_new_len [97])).raw[
        ni_string_len ((ni_string_cat_fmt (ni_string_new_len [97]) [37, 115]
          [FmtArg.aStr [98]]).getD (ni_string_new_len [97]))]? = some 0) ∧
    (ni_string_len (ni_string_make_room_for (ni_string_new_len [97]) 5) ≤
      ni_string_alloc (ni_string_make_room_for (ni_string_new_len [97]) 5) ∧
      (ni_string_make_room_for (ni_string_new_len [97]) 5).raw[
        ni_string_len (ni_string_make_room_for (ni_string_new_len [97]) 5)]? = some 0) ∧
    (ni_string_len (ni_string_remove_free_space exC9) ≤
      ni_string_alloc (ni_string_remove_free_space exC9) ∧
      (ni_string_remove_free_space exC9).raw[
        ni_string_len (ni_string_remove_free_space exC9)]? = some 0) :=
  ⟨by decide, by decide,
    C1_mutators_preserve_invariant.1 (ni_string_new_len [97]) [98] (by decide) (by decide),
    C1_mutators_preserve_invariant.2.1 (ni_string_new_len [97]) [98, 99] (by decide)
      (by decide),
    C1_mutators_preserve_invariant.2.2.1 (ni_string_new_len [97]) [49, 50] (by decide)
      (by decide),
    C1_mutators_preserve_invariant.2.2.2.1 (ni_string_new_len [97]) 3 (by decide)
      (by decide),
    C1_mutators_preserve_invariant.2.2.2.2.1 (ni_string_new_len [97]) [97] (by decide),
    C1_mutators_preserve_invariant.2.2.2.2.2.1 (ni_string_new_len [97]) 0 0 (by decide),
    C1_mutators_preserve_invariant.2.2.2.2.2.2.1 exC9 1 (by decide) (by decide),
    C1_mutators_preserve_invariant.2.2.2.2.2.2.2.1 (ni_string_new_len [97]) [37, 115]
      [FmtArg.aStr [98]] (by decide) (by decide),
    C1_mutators_preserve_invariant.2.2.2.2.2.2.2.2.1 (ni_string_new_len [97]) 5
      (by decide) (by decide),
    C1_mutators_preserve_invariant.2.2.2.2.2.2.2.2.2 exC9 (by decide)⟩

theorem C1_counterexample :
    Valid exT5 ∧ (ni_string_incr_len exT5 1).isSome = true ∧
    ¬ ((ni_string_incr_len exT5 1).getD exT5).raw[
        ni_string_len ((ni_string_incr_len exT5 1).getD exT5)]? = some 0 := by decide

/-- C2: ni_string_make_room_for returns the handle unchanged when the spare
capacity already covers the request (so a repeated call allocates nothing),
and otherwise sets the capacity to 2*(len+additional) below the 1 MiB
threshold and to len+additional+1MiB above it, never growing into the
Embedded-5 variant: a growth whose minimal variant would be Embedded-5 is
promoted to the 8-bit variant. -/
theorem C2_make_room_policy :
    (∀ s addlen, addlen ≤ ni_string_avail s → ni_string_make_room_for s addlen = s) ∧
    (∀ s addlen, Valid s → s.lenF + addlen + NI_STRING_MAX_PREALLOC < SIZE_T_MOD →
      ni_string_make_room_for (ni_string_make_room_for s addlen) addlen =
        ni_string_make_room_for s addlen) ∧
    (∀ s addlen, ¬ addlen ≤ ni_string_avail s →
      s.lenF + addlen + NI_STRING_MAX_PREALLOC < SIZE_T_MOD →
      ni_string_alloc (ni_string_make_room_for s addlen) =
        (if s.lenF + addlen < NI_STRING_MAX_PREALLOC then (s.lenF + addlen) * 2
         else s.lenF + addlen + NI_STRING_MAX_PREALLOC)) ∧
    (∀ s addlen, ¬ addlen ≤ ni_string_avail s →
      (ni_string_make_room_for s addlen).htype ≠ HType.t5 ∧
      (ni_string_req_type (growLen s.lenF addlen) = HType.t5 →
        (ni_string_make_room_for s addlen).htype = HType.t8)) := by
  refine ⟨?_, ?_, ?_, ?_⟩
  · intro s addlen h
    exact make_room_of_le h
  · intro s addlen hv hov
    obtain ⟨_, _, hav, _⟩ := make_room_spec s addlen hv hov
    exact make_room_of_le hav
  · intro s addlen h hov
    rw [make_room_alloc_grow h hov]
    exact growLen_eq s.lenF addlen hov
  · intro s addlen h
    rw [make_room_htype_grow h]
    refine ⟨growType_ne_t5 _ _, ?_⟩
    intro hreq
    rw [growType, hreq]
    rfl

theorem C2_witness :
    (2 : Nat) ≤ ni_string_avail exC9 ∧
    ni_string_make_room_for exC9 2 = exC9 ∧
    Valid exC9 ∧
    ni_string_make_room_for (ni_string_make_room_for exC9 5) 5 =
      ni_string_make_room_for exC9 5 ∧
    ¬ (5 : Nat) ≤ ni_string_avail exC9 ∧
    ni_string_alloc (ni_string_make_room_for exC9 5) =
      (if exC9.lenF + 5 < NI_STRING_MAX_PREALLOC then (exC9.lenF + 5) * 2
       else exC9.lenF + 5 + NI_STRING_MAX_PREALLOC) ∧
    ((ni_string_make_room_for exC9 5).htype ≠ HType.t5 ∧
      (ni_string_req_type (growLen exC9.lenF 5) = HType.t5 →
        (ni_string_make_room_for exC9 5).htype = HType.t8)) :=
  ⟨by decide, C2_make_room_policy.1 exC9 2 (by decide), by decide,
    C2_make_room_policy.2.1 exC9 5 (by decide) (by decide),
    by decide,
    C2_make_room_policy.2.2.1 exC9 5 (by decide) (by decide),
    C2_make_room_policy.2.2.2 exC9 5 (by decide)⟩

/-- C3: ni_string_cat_repr appends an opening double quote, every content
byte in the escaped form consumed by ni_string_split_args, and a closing
double quote; parsing the concatenation of two such representations joined
by a space with ni_string_split_args succeeds and returns exactly the two
original byte strings, embedded NUL and non-printable bytes included. -/
theorem C3_repr_round_trip :
    (∀ s p, Valid s →
      s.lenF + (reprBytes p).length + 2 * NI_STRING_MAX_PREALLOC < SIZE_T_MOD →
      nsContent (ni_string_cat_repr s p) = nsContent s ++ reprBytes p ∧
      Valid (ni_string_cat_repr s p)) ∧
    (∀ x y, (∀ b ∈ x, b < 256) → (∀ b ∈ y, b < 256) →
      ni_string_split_args (reprBytes x ++ 32 :: reprBytes y) = some [x, y]) := by
  refine ⟨?_, splitArgs_repr_pair⟩
  intro s p hv hov
  obtain ⟨h1, _, h3⟩ := cat_repr_spec s p hv hov
  exact ⟨h3, h1⟩

theorem C3_witness :
    Valid ni_string_empty ∧
    (nsContent (ni_string_cat_repr ni_string_empty [7, 0, 102]) =
      nsContent ni_string_empty ++ reprBytes [7, 0, 102] ∧
      Valid (ni_string_cat_repr ni_string_empty [7, 0, 102])) ∧
    (∀ b ∈ [7, 0, 102], b < 256) ∧ (∀ b ∈ [10, 34], b < 256) ∧
    ni_string_split_args (reprBytes [7, 0, 102] ++ 32 :: reprBytes [10, 34]) =
      some [[7, 0, 102], [10, 34]] :=
  ⟨by decide,
    C3_repr_round_trip.1 ni_string_empty [7, 0, 102] (by decide) (by decide),
    by decide, by decide,
    C3_repr_round_trip.2 [7, 0, 102] [10, 34] (by decide) (by decide)⟩

/-- C4: ni_string_split_args fails (NULL, modelled by none) exactly on the
malformed lines — an unterminated quote, or a closing quote followed by a
non-blank byte — as captured by the spec-side well-formedness scan scanOk,
for every NUL-free line; an empty or all-blank line instead returns the
distinct non-null empty vector (some []). -/
theorem C4_split_args_errors :
    (∀ line, 0 ∉ line →
      (ni_string_split_args line).isSome = scanOk ScanMode.out line) ∧
    (∀ line, (∀ b ∈ line, isspaceB b = true ∧ b ≠ 0) →
      ni_string_split_args line = some []) := by
  refine ⟨?_, splitArgs_blank⟩
  intro line h0
  exact splitArgsGo_scan (line.length + 1) line (by omega) h0

theorem C4_witness :
    (0 : Nat) ∉ [34, 97, 32] ∧
    (ni_string_split_args [34, 97, 32]).isSome = scanOk ScanMode.out [34, 97, 32] ∧
    (∀ b ∈ [32, 9, 13], isspaceB b = true ∧ b ≠ 0) ∧
    ni_string_split_args [32, 9, 13] = some [] :=
  ⟨by decide, C4_split_args_errors.1 [34, 97, 32] (by decide),
    by decide, C4_split_args_errors.2 [32, 9, 13] (by decide)⟩

/-- C5: ni_string_split_len rejects an empty separator with a NULL result
(none), returns the non-null empty vector for an empty input, and for
nonempty input and separator produces the left-to-right scan tokens: the
tokens joined by the separator reconstruct the input and the token count is
the number of non-overlapping separator occurrences plus one. -/
theorem C5_split_len_spec :
    (∀ s : List Nat, ni_string_split_len s [] = none) ∧
    (∀ sep : List Nat, 1 ≤ sep.length → ni_string_split_len [] sep = some []) ∧
    (∀ s sep : List Nat, 1 ≤ sep.length → s ≠ [] →
      ni_string_split_len s sep = some (splitLoop sep s) ∧
      joinSep sep (splitLoop sep s) = s ∧
      (splitLoop sep s).length = countSep sep s + 1) := by
  refine ⟨?_, ?_, ?_⟩
  · intro s
    rfl
  · intro sep hsep
    rw [ni_string_split_len, if_neg (by omega),
      if_pos (show ([] : List Nat).length = 0 from rfl)]
  · intro s sep hsep hs
    exact split_len_spec s sep hsep hs

theorem C5_witness :
    ni_string_split_len [102, 95, 98] [] = none ∧
    (1 : Nat) ≤ ([95] : List Nat).length ∧
    ni_string_split_len [] [95] = some [] ∧
    ([102, 95, 98] : List Nat) ≠ [] ∧
    (ni_string_split_len [102, 95, 98] [95] = some (splitLoop [95] [102, 95, 98]) ∧
      joinSep [95] (splitLoop [95] [102, 95, 98]) = [102, 95, 98] ∧
      (splitLoop [95] [102, 95, 98]).length = countSep [95] [102, 95, 98] + 1) :=
  ⟨C5_split_len_spec.1 [102, 95, 98], by decide,
    C5_split_len_spec.2.1 [95] (by decide), by decide,
    C5_split_len_spec.2.2 [102, 95, 98] [95] (by decide) (by decide)⟩

/-- C6 (amended): ni_string_range resolves negative indices from the end
and then floors them at 0 — including the end index, so an end resolving
below the start of the buffer keeps byte 0 instead of emptying the result —
caps the end at len-1, empties the result when the clamped interval is
empty or the start is at or past len, and shifts the survivors to offset 0
(rangeSpec); the claim's documented examples hold, but its stated clamp of
end into [-1, len) does not (see the counterexample). -/
theorem C6_range_clamping :
    (∀ s st en, Valid s →
      ni_string_len (ni_string_range s st en) = (rangeSpec (nsContent s) st en).length ∧
      nsContent (ni_string_range s st en) = rangeSpec (nsContent s) st en ∧
      Valid (ni_string_range s st en)) ∧
    nsContent (ni_string_range exCiao 1 1) = [105] ∧
    ni_string_len (ni_string_range exCiao 1 1) = 1 ∧
    nsContent (ni_string_range exCiao (-2) (-1)) = [97, 111] ∧
    ni_string_len (ni_string_range exCiao (-2) (-1)) = 2 ∧
    nsContent (ni_string_range exCiao 2 1) = [] ∧
    ni_string_len (ni_string_range exCiao 2 1) = 0 := by
  refine ⟨?_, by decide, by decide, by decide, by decide, by decide, by decide⟩
  intro s st en hv
  obtain ⟨h1, _, _, h4, h5⟩ := range_spec s st en hv
  exact ⟨h4, h5, h1⟩

theorem C6_witness :
    Valid exCiao ∧
    (ni_string_len (ni_string_range exCiao (-2) 100) =
      (rangeSpec (nsContent exCiao) (-2) 100).length ∧
      nsContent (ni_string_range exCiao (-2) 100) =
        rangeSpec (nsContent exCiao) (-2) 100 ∧
      Valid (ni_string_range exCiao (-2) 100)) :=
  ⟨by decide, C6_range_clamping.1 exCiao (-2) 100 (by decide)⟩

theorem C6_counterexample :
    nsContent (ni_string_range exCiao 0 (-10)) = [99] ∧
    ni_string_len (ni_string_range exCiao 0 (-10)) = 1 ∧
    rangeClaimSpec (nsContent exCiao) 0 (-10) = [] := by decide

/-- C7 (amended): ni_string_remove_free_space keeps the byte contents and
the length, reduces the capacity to exactly the length, and recomputes the
header variant from the current length only when that minimal variant is
Embedded-5 or the 8-bit variant; when the minimal variant is larger than
the 8-bit one the buffer is reallocated in place and keeps its old, possibly
non-minimal variant, contradicting the claim's unconditional minimality
(see the counterexample). -/
theorem C7_remove_free_space_variant :
    ∀ s, Valid s →
      Valid (ni_string_remove_free_space s) ∧
      ni_string_len (ni_string_remove_free_space s) = ni_string_len s ∧
      nsContent (ni_string_remove_free_space s) = nsContent s ∧
      ni_string_alloc (ni_string_remove_free_space s) = ni_string_len s ∧
      (ni_string_remove_free_space s).htype =
        (if ni_string_avail s = 0 then s.htype
         else if s.htype = ni_string_req_type s.lenF ∨
             htypeOrd HType.t8 < htypeOrd (ni_string_req_type s.lenF) then s.htype
         else ni_string_req_type s.lenF) :=
  fun s hv => remove_free_space_spec s hv

theorem C7_witness :
    Valid exC9 ∧
    (Valid (ni_string_remove_free_space exC9) ∧
      ni_string_len (ni_string_remove_free_space exC9) = ni_string_len exC9 ∧
      nsContent (ni_string_remove_free_space exC9) = nsContent exC9 ∧
      ni_string_alloc (ni_string_remove_free_space exC9) = ni_string_len exC9 ∧
      (ni_string_remove_free_space exC9).htype =
        (if ni_string_avail exC9 = 0 then exC9.htype
         else if exC9.htype = ni_string_req_type exC9.lenF ∨
             htypeOrd HType.t8 < htypeOrd (ni_string_req_type exC9.lenF) then exC9.htype
         else ni_string_req_type exC9.lenF)) :=
  ⟨by decide, C7_remove_free_space_variant exC9 (by decide)⟩

theorem C7_counterexample :
    Valid exC7 ∧ 0 < ni_string_avail exC7 ∧
    ni_string_req_type (ni_string_len exC7) = HType.t16 ∧
    (ni_string_remove_free_space exC7).htype = HType.t32 ∧
    nsContent (ni_string_remove_free_space exC7) = nsContent exC7 := by decide

/-- C8: ni_string_cat_fmt appends the format with the recognized verbs (%s
and %S: the argument's bytes, %i %I %u %U: the exact decimal rendering of
the integer argument, %% and any other byte after a percent: that byte
itself) substituted as described by fmtRender, and on the documented
example — appending "Hello %s World %I,%I--" with arguments "Hi!",
INT64_MIN and INT64_MAX to a buffer holding "--" — produces exactly
"--Hello Hi! World -9223372036854775808,9223372036854775807--" of length
60. -/
theorem C8_cat_fmt_verbs :
    (∀ s fmt args, Valid s →
      s.lenF + (fmtRender fmt args).length + 2 * NI_STRING_MAX_PREALLOC < SIZE_T_MOD →
      ∃ r, ni_string_cat_fmt s fmt args = some r ∧
        ni_string_len r = ni_string_len s + (fmtRender fmt args).length ∧
        nsContent r = nsContent s ++ fmtRender fmt args ∧ Valid r) ∧
    (ni_string_cat_fmt (ni_string_new_len [45, 45])
      [72, 101, 108, 108, 111, 32, 37, 115, 32, 87, 111, 114, 108, 100, 32, 37, 73,
        44, 37, 73, 45, 45]
      [FmtArg.aStr [72, 105, 33], FmtArg.aInt (-9223372036854775808),
        FmtArg.aInt 9223372036854775807]).map nsContent =
      some [45, 45, 72, 101, 108, 108, 111, 32, 72, 105, 33, 32, 87, 111, 114, 108,
        100, 32, 45, 57, 50, 50, 51, 51, 55, 50, 48, 51, 54, 56, 53, 52, 55, 55, 53,
        56, 48, 56, 44, 57, 50, 50, 51, 51, 55, 50, 48, 51, 54, 56, 53, 52, 55, 55,
        53, 56, 48, 55, 45, 45] ∧
    (ni_string_cat_fmt (ni_string_new_len [45, 45])
      [72, 101, 108, 108, 111, 32, 37, 115, 32, 87, 111, 114, 108, 100, 32, 37, 73,
        44, 37, 73, 45, 45]
      [FmtArg.aStr [72, 105, 33], FmtArg.aInt (-9223372036854775808),
        FmtArg.aInt 9223372036854775807]).map ni_string_len = some 60 := by
  refine ⟨?_, by decide, by decide⟩
  intro s fmt args hv hov
  obtain ⟨r, h1, h2, h3, h4⟩ := cat_fmt_spec s fmt args hv hov
  exact ⟨r, h1, h2, h3, h4⟩

theorem C8_witness :
    Valid (ni_string_new_len [45]) ∧
    (∃ r, ni_string_cat_fmt (ni_string_new_len [45]) [37, 85, 37, 37]
        [FmtArg.aUInt 18446744073709551615] = some r ∧
      ni_string_len r = ni_string_len (ni_string_new_len [45]) +
        (fmtRender [37, 85, 37, 37] [FmtArg.aUInt 18446744073709551615]).length ∧
      nsContent r = nsContent (ni_string_new_len [45]) ++
        fmtRender [37, 85, 37, 37] [FmtArg.aUInt 18446744073709551615] ∧
      Valid r) :=
  ⟨by decide, C8_cat_fmt_verbs.1 (ni_string_new_len [45]) [37, 85, 37, 37]
    [FmtArg.aUInt 18446744073709551615] (by decide) (by decide)⟩

/-- C9 (amended): ni_string_incr_len passes its per-variant assertion, sets
the length to len + delta, stores the terminator at the new end and touches
neither the variant, the capacity field nor the allocation, whenever delta
is nonnegative and at most the available capacity — excluding the
Embedded-5 buffer with delta = 0, for which the assertion has no satisfied
disjunct and aborts even though the claimed precondition holds (see the
counterexample) — or delta is negative with -delta at most the length. -/
theorem C9_incr_len_precondition :
    ∀ s incr, Valid s →
      ((0 ≤ incr ∧ incr ≤ (ni_string_avail s : Int) ∧
          ¬(s.htype = HType.t5 ∧ incr = 0)) ∨
        (incr < 0 ∧ -incr ≤ (s.lenF : Int))) →
      (ni_string_incr_len s incr).isSome = true ∧
      ((ni_string_incr_len s incr).getD s).lenF = ((s.lenF : Int) + incr).toNat ∧
      ((ni_string_incr_len s incr).getD s).raw[((s.lenF : Int) + incr).toNat]? =
        some 0 ∧
      ((ni_string_incr_len s incr).getD s).htype = s.htype ∧
      ((ni_string_incr_len s incr).getD s).allocF = s.allocF ∧
      ((ni_string_incr_len s incr).getD s).raw.length = s.raw.length ∧
      Valid ((ni_string_incr_len s incr).getD s) :=
  fun s incr hv hpre => incr_len_spec s incr hv hpre

theorem C9_witness :
    Valid exC9 ∧
    ((ni_string_incr_len exC9 1).isSome = true ∧
      ((ni_string_incr_len exC9 1).getD exC9).lenF = ((exC9.lenF : Int) + 1).toNat ∧
      ((ni_string_incr_len exC9 1).getD exC9).raw[((exC9.lenF : Int) + 1).toNat]? =
        some 0 ∧
      ((ni_string_incr_len exC9 1).getD exC9).htype = exC9.htype ∧
      ((ni_string_incr_len exC9 1).getD exC9).allocF = exC9.allocF ∧
      ((ni_string_incr_len exC9 1).getD exC9).raw.length = exC9.raw.length ∧
      Valid ((ni_string_incr_len exC9 1).getD exC9)) :=
  ⟨by decide, C9_incr_len_precondition exC9 1 (by decide)
    (Or.inl ⟨by decide, by decide, by decide⟩)⟩

theorem C9_counterexample :
    Valid exT5 ∧ (0 : Int) ≤ 0 ∧ (0 : Int) ≤ (ni_string_avail exT5 : Int) ∧
    ni_string_incr_len exT5 0 = none := by decide

/-- C10: ni_string_clear sets the length to 0 and writes a NUL at offset 0
in place: the header variant, the capacity field, the allocation size and
every byte of the region past offset 0 are unchanged, so the space stays
available as spare capacity. -/
theorem C10_clear_frame :
    ∀ s, Valid s →
      ni_string_len (ni_string_clear s) = 0 ∧
      (ni_string_clear s).raw[0]? = some 0 ∧
      (ni_string_clear s).htype = s.htype ∧
      allocField (ni_string_clear s) = allocField s ∧
      (ni_string_clear s).raw.length = s.raw.length ∧
      (ni_string_clear s).raw.tail = s.raw.tail ∧
      (s.htype ≠ HType.t5 → ni_string_avail (ni_string_clear s) = ni_string_alloc s) ∧
      Valid (ni_string_clear s) :=
  fun s hv => clear_spec s hv

theorem C10_witness :
    Valid exC9 ∧
    (ni_string_len (ni_string_clear exC9) = 0 ∧
      (ni_string_clear exC9).raw[0]? = some 0 ∧
      (ni_string_clear exC9).htype = exC9.htype ∧
      allocField (ni_string_clear exC9) = allocField exC9 ∧
      (ni_string_clear exC9).raw.length = exC9.raw.length ∧
      (ni_string_clear exC9).raw.tail = exC9.raw.tail ∧
      (exC9.htype ≠ HType.t5 →
        ni_string_avail (ni_string_clear exC9) = ni_string_alloc exC9) ∧
      Valid (ni_string_clear exC9)) :=
  ⟨by decide, C10_clear_frame exC9 (by decide)⟩
